import Mathlib

/-!
Verification of the goalpost task-rebalancing core
(`src/app/backend/agents/rebalance_agent.py`).

Modelling conventions of the shallow embedding:

* Dates are integers counting days from an epoch that falls on a Monday
  (Python's `date.toordinal()` minus 1: day 0 = 0001-01-01, a Monday), so
  `date.weekday()` is `d % 7` and `get_current_week_start` is
  `today - today % 7`.
* The `"%Y-%W"` label produced by `strftime` is injective and monotone on
  Monday dates (each Monday begins a distinct zero-padded week, and the
  lexicographic order of the labels agrees with the order of the dates), so
  a `year_week` label is represented by the Monday date it denotes, as an
  `Int`.  Label equality / lexicographic-sort comparisons in the source
  become `Int` equality / numeric-sort comparisons here.
* Python `float` budgets (`current_week_hours`, `future_week_hours`) are
  modelled as `Int`: every number the algorithm handles is a whole number
  of hours (`get_hours` returns integers, and loads, excess and spare
  capacity are sums and differences of those), and the only float
  operations used — comparison, addition, subtraction, `round(·, 1)` on
  such values — are exact, so the integer model coincides with the float
  computation on the modelled inputs.
* Python dicts keyed by labels are association lists `List (Int × α)`
  with first-match lookup and in-place overwrite (`aListSet`).
* The row set that `get_user_tasks` fetches from the database is passed to
  `calculate_rebalance` directly as a `List Task`; the database behind
  `apply_rebalance` is abstracted by two predicates (task ownership,
  update success) and the parse result of the incoming week-start string.
-/

namespace GP

/-- A pending task row as fetched by `get_user_tasks` (joined with its goal). -/
structure Task where
  task_id : Nat
  goal_id : Nat
  title : String
  week_start : Int
  week_end : Int
  year_week : Int
  target_count : Option Int
  status : String
  priority : Int
  goal_deadline : Option Int
deriving DecidableEq

/-- One proposed move (`changes` entry) in a rebalance plan. -/
structure Change where
  action : String
  task_id : Nat
  task_title : String
  from_week : Int
  to_week : Int
  target_week_start : Int
  reason : String
  is_overdue : Bool
  direction : String
deriving DecidableEq

/-- One `overloaded_weeks` report row. -/
structure OverloadedWeek where
  week : Int
  hours : Int
  capacity : Int
  excess : Int
  task_count : Nat
deriving DecidableEq

/-- The `summary` sub-dict of a plan.  `current_week_hours` is an `Option`
because the zero-task branch of `calculate_rebalance` builds its summary
without that key. -/
structure Summary where
  total_tasks_analyzed : Nat
  tasks_to_move : Nat
  hours_per_week : Int
  current_week_hours : Option Int
  overloaded_weeks : List OverloadedWeek
  overdue_tasks_moved : Nat
  pulled_forward : Nat
deriving DecidableEq

/-- The full result dict of `calculate_rebalance`. -/
structure Plan where
  success : Bool
  message : String
  recommendations : List String
  changes : List Change
  summary : Summary
deriving DecidableEq

/-- The per-week record held in `week_info` (`week_start_date` always equals
`week_start` in this embedding, so it is stored once). -/
structure WInfo where
  week_start : Int
  week_end : Int
  type : String
deriving DecidableEq

/-- `get_current_week_start`: Monday of the current week,
`today - timedelta(days=today.weekday())`. -/
def get_current_week_start (today : Int) : Int :=
  today - today % 7

/-- The week-type decision of the grouping loop in `calculate_rebalance`
(lines 122-127): strictly-before-current-Monday ⇒ overdue, label equal to
the current week's label ⇒ current, otherwise future.  The current week's
label is its Monday date under the label encoding. -/
def classify_week (currentWeekStart weekStartDate yearWeek : Int) : String :=
  if weekStartDate < currentWeekStart then "overdue"
  else if yearWeek = currentWeekStart then "current"
  else "future"

/-- `get_hours` from `calculate_rebalance`: clamp `target_count` into hours. -/
def get_hours (t : Task) : Int :=
  match t.target_count with
  | none => 1
  | some tc => if tc ≤ 0 ∨ tc > 20 then 1 else min tc 8

/-- The clamp as the spec words it (§4.2): `clamp(x) = 1 if x is None or
x<=0 or x>20 else min(x, 8)`.  Stated from the spec, for comparison with
the source's `get_hours`. -/
def clamp_spec (x : Option Int) : Int :=
  match x with
  | none => 1
  | some v => if v ≤ 0 ∨ v > 20 then 1 else min v 8

/-- `tasks_by_week[l]`: the tasks carrying label `l`, in fetch order. -/
def tasksByWeek (tasks : List Task) (l : Int) : List Task :=
  tasks.filter (fun t => t.year_week = l)

/-- Association-list lookup (Python dict read). -/
def aListGet? {α : Type} (m : List (Int × α)) (k : Int) : Option α :=
  match m with
  | [] => none
  | (k', v) :: rest => if k = k' then some v else aListGet? rest k

/-- Python `dict.get(k, d)`. -/
def aListGetD {α : Type} (m : List (Int × α)) (k : Int) (d : α) : α :=
  (aListGet? m k).getD d

/-- Python `dict[k] = v`: overwrite the existing binding or append. -/
def aListSet {α : Type} (m : List (Int × α)) (k : Int) (v : α) :
    List (Int × α) :=
  match m with
  | [] => [(k, v)]
  | (k', v') :: rest =>
      if k = k' then (k, v) :: rest else (k', v') :: aListSet rest k v

/-- First-occurrence deduplication, with the keys already emitted carried
in `seen`. -/
def dedupKeysAux (seen : List Int) : List Int → List Int
  | [] => []
  | x :: xs =>
      if x ∈ seen then dedupKeysAux seen xs
      else x :: dedupKeysAux (x :: seen) xs

/-- First-occurrence deduplication of the label list (the key set of the
`tasks_by_week` defaultdict). -/
def dedupKeys (l : List Int) : List Int := dedupKeysAux [] l

/-- Insertion into an ascending `Int` list. -/
def insertLE (x : Int) : List Int → List Int
  | [] => [x]
  | y :: ys => if x ≤ y then x :: y :: ys else y :: insertLE x ys

/-- Ascending sort of the label list (`sorted(tasks_by_week.keys())`). -/
def sortLabels : List Int → List Int
  | [] => []
  | x :: xs => insertLE x (sortLabels xs)

/-- Stable insertion by an integer key: a later element is inserted after
the existing elements with the same key. -/
def insertTaskBy (key : Task → Int) (t : Task) : List Task → List Task
  | [] => [t]
  | u :: us => if key t ≤ key u then t :: u :: us else u :: insertTaskBy key t us

/-- Stable ascending sort by an integer key, matching Python's stable
`sorted(..., key=...)`. -/
def sortTasksBy (key : Task → Int) : List Task → List Task
  | [] => []
  | t :: ts => insertTaskBy key t (sortTasksBy key ts)

/-- The grouping loop of `calculate_rebalance`: `week_info` records, per
label, the `week_start`/`week_end` of the first task seen with that label
and the week's classification. -/
def buildWeekInfo (cws : Int) : List Task → List (Int × WInfo) → List (Int × WInfo)
  | [], acc => acc
  | t :: ts, acc =>
      if (aListGet? acc t.year_week).isSome then buildWeekInfo cws ts acc
      else
        buildWeekInfo cws ts
          (acc ++ [(t.year_week,
            ⟨t.week_start, t.week_end, classify_week cws t.week_start t.year_week⟩)])

/-- `get_capacity`: overdue ⇒ 0, current ⇒ `current_week_hours`, otherwise
(including a label missing from `week_info`, whose type defaults to
`"future"`) ⇒ `future_week_hours`. -/
def get_capacity (weekInfo : List (Int × WInfo)) (cwh fwh : Int) (yw : Int) : Int :=
  match aListGet? weekInfo yw with
  | none => fwh
  | some i =>
      if i.type = "overdue" then 0
      else if i.type = "current" then cwh
      else fwh

/-- Sum of clamped hours over a task list (per-week load). -/
def sumHours (ts : List Task) : Int :=
  (ts.map get_hours).sum

/-- The mutable bookkeeping of one `calculate_rebalance` run: the (growing)
`sorted_weeks` list, the `week_info` and `week_load` dicts, the accumulated
`changes`, and the two counters. -/
structure St where
  full : List Int
  week_info : List (Int × WInfo)
  week_load : List (Int × Int)
  changes : List Change
  overdue_count : Nat
  pulled : Nat
deriving DecidableEq

/-- The `type` recorded for a label, defaulting to `"future"` when absent
(`week_info.get(w, \x7b\x7d).get("type", "future")`). -/
def infoType (weekInfo : List (Int × WInfo)) (w : Int) : String :=
  match aListGet? weekInfo w with
  | some i => i.type
  | none => "future"

/-- The `week_start` recorded for a label; the source indexes
`week_info[w]["week_start"]` directly, which under the run's invariants
always succeeds — the default `w` only totalises the function. -/
def infoWeekStart (weekInfo : List (Int × WInfo)) (w : Int) : Int :=
  match aListGet? weekInfo w with
  | some i => i.week_start
  | none => w

/-- Destination search space of the push phase (lines 205-210): for an
overdue source week, every known week whose recorded type is current or
future, in list order; otherwise only the weeks strictly after the first
occurrence of the source week in `sorted_weeks`. -/
def searchSpace (full : List Int) (weekInfo : List (Int × WInfo))
    (w : Int) (weekType : String) : List Int :=
  if weekType = "overdue" then
    full.filter (fun v =>
      match aListGet? weekInfo v with
      | some i => i.type == "current" || i.type == "future"
      | none => false)
  else
    full.drop (full.indexOf w + 1)

/-- First-fit scan (lines 212-219): the first candidate whose current load
plus the task's hours stays within its capacity. -/
def findFit (weekInfo : List (Int × WInfo)) (weekLoad : List (Int × Int))
    (cwh fwh : Int) (hours : Int) : List Int → Option Int
  | [] => none
  | v :: vs =>
      if aListGetD weekLoad v 0 + hours ≤ get_capacity weekInfo cwh fwh v
      then some v
      else findFit weekInfo weekLoad cwh fwh hours vs

/-- The push-phase `reason` string for a non-overdue source week. -/
def pushReason (p : Int) : String := s!"Priority {p} - pushed forward"

/-- The change record a push move appends (lines 264-274). -/
def pushChange (w : Int) (weekType : String) (t : Task) (tw tws : Int) :
    Change :=
  { action := "move", task_id := t.task_id, task_title := t.title.take 60,
    from_week := w, to_week := tw, target_week_start := tws,
    reason := if weekType = "overdue" then "Overdue task" else pushReason t.priority,
    is_overdue := weekType == "overdue", direction := "push" }

/-- Record one push move (lines 264-282): append the change, bump the
overdue counter when the source week is overdue, and transfer the task's
hours in `week_load` from the source to the destination. -/
def recordPush (w : Int) (weekType : String) (t : Task) (hours : Int)
    (tw tws : Int) (st : St) : St :=
  let m1 := aListSet st.week_load w (aListGetD st.week_load w 0 - hours)
  let m2 := aListSet m1 tw (aListGetD m1 tw 0 + hours)
  { st with
    changes := st.changes ++ [pushChange w weekType t tw tws],
    overdue_count :=
      if weekType = "overdue" then st.overdue_count + 1 else st.overdue_count,
    week_load := m2 }

/-- The start of the week the push phase would synthesise: one week after
the latest known week, or the current week start when no weeks exist
(lines 222-234). -/
def nsOf (cws : Int) (st : St) : Int :=
  match st.full.getLast? with
  | some l => infoWeekStart st.week_info l + 7
  | none => cws

/-- The goal-deadline check on a synthesised week start (lines 239-246):
extending is allowed unless the new start exceeds the deadline. -/
def canExtendB (t : Task) (newStart : Int) : Bool :=
  match t.goal_deadline with
  | none => true
  | some d => !(newStart > d)

/-- Register a synthesised week (lines 248-259): append its label to
`sorted_weeks`, record it in `week_info` as a `"future"` week, and give it
zero initial load. -/
def synthSt (st : St) (newStart : Int) : St :=
  { st with
    full := st.full ++ [newStart],
    week_info := aListSet st.week_info newStart ⟨newStart, newStart + 6, "future"⟩,
    week_load := aListSet st.week_load newStart 0 }

/-- The candidate-task loop of the push phase (lines 194-282).  For each
movable task: stop early when a non-overdue week's excess is spent; find a
first-fit destination; failing that, synthesise a new week one week after
the latest known week (classified `"future"`, zero load) unless the goal
deadline forbids it; record the move when a destination exists. -/
def pushTasks (cws : Int) (cwh fwh : Int) (w : Int) (weekType : String) :
    List Task → Int → St → St
  | [], _, st => st
  | t :: rest, excess, st =>
    if weekType ≠ "overdue" ∧ excess ≤ 0 then st
    else
      let hours := get_hours t
      let search := searchSpace st.full st.week_info w weekType
      match findFit st.week_info st.week_load cwh fwh hours search with
      | some tw =>
          pushTasks cws cwh fwh w weekType rest (excess - hours)
            (recordPush w weekType t hours tw (infoWeekStart st.week_info tw) st)
      | none =>
          let newStart := nsOf cws st
          if canExtendB t newStart then
            pushTasks cws cwh fwh w weekType rest (excess - hours)
              (recordPush w weekType t hours newStart newStart
                (synthSt st newStart))
          else
            pushTasks cws cwh fwh w weekType rest excess st

/-- Process one week of the push phase (lines 172-192): skip it when its
load fits its capacity; otherwise push its movable (non-IN_PROGRESS) tasks,
lowest priority first. -/
def processWeek (tasks : List Task) (cws : Int) (cwh fwh : Int) (w : Int)
    (st : St) : St :=
  let current_hours := aListGetD st.week_load w 0
  let capacity := get_capacity st.week_info cwh fwh w
  if current_hours ≤ capacity then st
  else
    let weekType := infoType st.week_info w
    let movable := sortTasksBy (fun t => -t.priority)
      ((tasksByWeek tasks w).filter (fun t => t.status ≠ "IN_PROGRESS"))
    pushTasks cws cwh fwh w weekType movable (current_hours - capacity) st

/-- The `for week in sorted_weeks` loop of the push phase.  Python iterates
over the list while the loop body appends to it, so newly synthesised weeks
are visited too; the queue models the unvisited suffix and receives exactly
the labels the body appended.  The fuel only totalises the recursion — the
caller passes enough for every run that the theorems quantify over. -/
def phase1Go (tasks : List Task) (cws : Int) (cwh fwh : Int) :
    Nat → List Int → St → St
  | 0, _, st => st
  | _ + 1, [], st => st
  | fuel + 1, w :: rest, st =>
      let st' := processWeek tasks cws cwh fwh w st
      phase1Go tasks cws cwh fwh fuel (rest ++ st'.full.drop st.full.length) st'

/-- The pull-phase `reason` string. -/
def pullReason (p : Int) : String := s!"Priority {p} - pulled to current week"

/-- The change record a pull move appends (lines 323-333 / 369-379). -/
def pullChange (cyw tws fw : Int) (t : Task) : Change :=
  { action := "move", task_id := t.task_id, task_title := t.title.take 60,
    from_week := fw, to_week := cyw, target_week_start := tws,
    reason := pullReason t.priority,
    is_overdue := false, direction := "pull" }

/-- Record one pull move (lines 323-338 / 369-393): append the change, bump
`pulled_forward_count`, move the hours in `week_load`, and — only in the
no-current-week branch — insert a `"current"` entry into `week_info` when
the current label is still absent. -/
def recordPull (cyw tws : Int) (insertCur : Bool) (cws : Int) (fw : Int)
    (t : Task) (hours : Int) (st : St) : St :=
  let m1 := aListSet st.week_load fw (aListGetD st.week_load fw 0 - hours)
  let m2 := aListSet m1 cyw (aListGetD m1 cyw 0 + hours)
  let wi :=
    if insertCur ∧ (aListGet? st.week_info cyw).isNone then
      aListSet st.week_info cyw ⟨cws, cws + 6, "current"⟩
    else st.week_info
  { st with
    changes := st.changes ++ [pullChange cyw tws fw t],
    pulled := st.pulled + 1,
    week_load := m2,
    week_info := wi }

/-- The candidate loop inside one future week of the pull phase: stop once
spare capacity is spent; skip tasks already present in `changes`; pull a
task whenever its hours fit the remaining spare capacity. -/
def pullTasks (cyw tws : Int) (insertCur : Bool) (cws : Int) (fw : Int) :
    List Task → Int → St → St × Int
  | [], spare, st => (st, spare)
  | t :: rest, spare, st =>
      if spare ≤ 0 then (st, spare)
      else if st.changes.any (fun c => c.task_id == t.task_id) then
        pullTasks cyw tws insertCur cws fw rest spare st
      else
        let hours := get_hours t
        if hours ≤ spare then
          pullTasks cyw tws insertCur cws fw rest (spare - hours)
            (recordPull cyw tws insertCur cws fw t hours st)
        else
          pullTasks cyw tws insertCur cws fw rest spare st

/-- The `for future_week in future_weeks` loop of the pull phase: per future
week, the candidates are its NEW tasks sorted by ascending priority. -/
def pullWeeks (tasks : List Task) (cyw tws : Int) (insertCur : Bool)
    (cws : Int) : List Int → Int → St → St
  | [], _, st => st
  | fw :: rest, spare, st =>
      if spare ≤ 0 then st
      else
        let cand := sortTasksBy (fun t => t.priority)
          ((tasksByWeek tasks fw).filter (fun t => t.status == "NEW"))
        let (st', spare') := pullTasks cyw tws insertCur cws fw cand spare st
        pullWeeks tasks cyw tws insertCur cws rest spare' st'

/-- Phase 2 (lines 287-393).  When the current label is a known week, pull
into its positive spare capacity; otherwise, when `current_week_hours > 0`,
pull into a freshly assumed empty current week. -/
def phase2 (tasks : List Task) (cws cyw : Int) (cwh : Int) (st : St) : St :=
  if (aListGet? st.week_info cyw).isSome then
    let spare := cwh - aListGetD st.week_load cyw 0
    if 0 < spare then
      let futureWeeks := st.full.filter (fun w =>
        match aListGet? st.week_info w with
        | some i => i.type == "future"
        | none => false)
      pullWeeks tasks cyw (infoWeekStart st.week_info cyw) false cws futureWeeks spare st
    else st
  else if 0 < cwh then
    let futureWeeks := st.full.filter (fun w =>
      match aListGet? st.week_info w with
      | some i => i.type == "future"
      | none => false)
    pullWeeks tasks cyw cws true cws futureWeeks cwh st
  else st

/-- The post-phase overload report (lines 398-414): every non-overdue known
week whose remaining load exceeds its capacity, with the original task
count of its label.  `round(·, 1)` in the source is the identity on the
integral hours and excess values modelled here. -/
def overloadedWeeksOf (tasks : List Task) (cwh fwh : Int) (st : St) :
    List OverloadedWeek :=
  st.full.filterMap (fun w =>
    if infoType st.week_info w = "overdue" then none
    else
      let capacity := get_capacity st.week_info cwh fwh w
      let hours := aListGetD st.week_load w 0
      if capacity < hours then
        some ⟨w, hours, capacity, hours - capacity,
              (tasksByWeek tasks w).length⟩
      else none)

/-- The clause list joined into the final message (lines 417-429). -/
def buildMessages (overdueCount pushedCount pulled numOverloaded : Nat) :
    List String :=
  (if overdueCount > 0 then [s!"{overdueCount} overdue tasks pushed forward"] else []) ++
  (if pushedCount > 0 then [s!"{pushedCount} tasks pushed to later weeks"] else []) ++
  (if pulled > 0 then [s!"{pulled} tasks pulled to this week"] else []) ++
  (if numOverloaded > 0 then [s!"{numOverloaded} weeks still overloaded"] else [])

/-- Message/recommendation selection and the final plan dict
(lines 431-458). -/
def assemblePlan (tasks : List Task) (cwh fwh : Int) (st : St)
    (ow : List OverloadedWeek) : Plan :=
  let pushedCount :=
    (st.changes.filter (fun c => c.direction == "push" && !c.is_overdue)).length
  let msgs := buildMessages st.overdue_count pushedCount st.pulled ow.length
  let joined := String.intercalate " | " msgs
  let nc := st.changes.length
  let mr : String × List String :=
    if nc = 0 ∧ ow.length = 0 then
      ("Your workload is already balanced!", ["Great job managing your time!"])
    else if nc > 0 ∧ ow.length = 0 then
      (if msgs.isEmpty then s!"Moving {nc} tasks" else joined,
       ["Apply changes to optimize your schedule"])
    else
      (if msgs.isEmpty then "Rebalance calculated" else joined,
       ["Some high-priority tasks can\x27t be moved",
        s!"Consider increasing weekly hours above {fwh}h"])
  { success := true,
    message := mr.1,
    recommendations := mr.2,
    changes := st.changes,
    summary := {
      total_tasks_analyzed := tasks.length,
      tasks_to_move := st.changes.length,
      hours_per_week := fwh,
      current_week_hours := some cwh,
      overloaded_weeks := ow,
      overdue_tasks_moved := st.overdue_count,
      pulled_forward := st.pulled } }

/-- The initial `sorted_weeks` (ascending sort of the distinct labels). -/
def initWeeks (tasks : List Task) : List Int :=
  sortLabels (dedupKeys (tasks.map (fun t => t.year_week)))

/-- The initial bookkeeping state of a run. -/
def initSt (tasks : List Task) (cws : Int) : St :=
  let sw := initWeeks tasks
  { full := sw,
    week_info := buildWeekInfo cws tasks [],
    week_load := sw.map (fun l => (l, sumHours (tasksByWeek tasks l))),
    changes := [], overdue_count := 0, pulled := 0 }

/-- Bookkeeping state after both phases (used by the plan assembly and
exposed for statements about the run's internal week records). -/
def rebalanceState (tasks : List Task) (cwh fwh : Int) (today : Int) : St :=
  let cws := get_current_week_start today
  let st0 := initSt tasks cws
  let st1 := phase1Go tasks cws cwh fwh (st0.full.length + tasks.length + 1)
    st0.full st0
  phase2 tasks cws cws cwh st1

/-- `calculate_rebalance` (minus the database fetch): the fixed no-op plan
for an empty task list, otherwise push phase, pull phase, overload report
and plan assembly over the fetched rows. -/
def calculate_rebalance (tasks : List Task) (cwh fwh : Int) (today : Int) :
    Plan :=
  if tasks.isEmpty then
    { success := true,
      message := "No pending tasks to rebalance",
      recommendations := [],
      changes := [],
      summary := {
        total_tasks_analyzed := 0, tasks_to_move := 0, hours_per_week := fwh,
        current_week_hours := none, overloaded_weeks := [],
        overdue_tasks_moved := 0, pulled_forward := 0 } }
  else
    let st := rebalanceState tasks cwh fwh today
    assemblePlan tasks cwh fwh st (overloadedWeeksOf tasks cwh fwh st)

/-- A change record as handed to `apply_rebalance` (the caller may edit the
list, so it is a separate shape from `Change`).  `target_week_start`
distinguishes the three states of the incoming value: absent/falsy
(`none`), present but not an ISO date (`some none`), or parsed to a date
(`some (some d)`). -/
structure ApplyChange where
  action : String
  task_id : Nat
  task_title : String
  from_week : Int
  target_week_start : Option (Option Int)
  direction : String
deriving DecidableEq

/-- One `applied` row of the apply result. -/
structure AppliedRow where
  task_id : Nat
  task_title : String
  from_week : Int
  to_week : Int
  direction : String
deriving DecidableEq

/-- One `errors` row of the apply result. -/
structure ErrRow where
  task_id : Nat
  error : String
deriving DecidableEq

/-- The result dict of `apply_rebalance`. -/
structure ApplyResult where
  success : Bool
  applied : List AppliedRow
  errors : List ErrRow
  total_applied : Nat
  total_errors : Nat
deriving DecidableEq

/-- The storage visible to `apply_rebalance`, abstracted: whether a task id
exists for the requesting user, and whether the UPDATE for it succeeds. -/
structure ApplyEnv where
  owned : Nat → Bool
  updateOk : Nat → Bool

/-- Processing of one change row (lines 468-525): skip non-move actions;
falsy target week ⇒ error; parse failure ⇒ caught exception recorded as an
error; unknown task ⇒ "Task not found"; storage failure ⇒ caught exception;
otherwise record the applied move.  The exception texts stand in for
Python's `str(e)`. -/
def applyStep (env : ApplyEnv) (acc : List AppliedRow × List ErrRow)
    (c : ApplyChange) : List AppliedRow × List ErrRow :=
  if c.action ≠ "move" then acc
  else
    match c.target_week_start with
    | none => (acc.1, acc.2 ++ [⟨c.task_id, "No target week start"⟩])
    | some none => (acc.1, acc.2 ++ [⟨c.task_id, "Invalid isoformat string"⟩])
    | some (some ws) =>
        if !env.owned c.task_id then
          (acc.1, acc.2 ++ [⟨c.task_id, "Task not found"⟩])
        else if !env.updateOk c.task_id then
          (acc.1, acc.2 ++ [⟨c.task_id, "Storage error"⟩])
        else
          (acc.1 ++ [⟨c.task_id, c.task_title, c.from_week, ws, c.direction⟩],
           acc.2)

/-- `apply_rebalance` (lines 461-533): apply each change independently and
report `success = (errors == [])` with both lists and their counts. -/
def apply_rebalance (env : ApplyEnv) (changes : List ApplyChange) :
    ApplyResult :=
  let ae := changes.foldl (applyStep env) ([], [])
  { success := ae.2.isEmpty,
    applied := ae.1,
    errors := ae.2,
    total_applied := ae.1.length,
    total_errors := ae.2.length }

/-- Whether a change row passes every check of the apply loop. -/
def applyOk (env : ApplyEnv) (c : ApplyChange) : Bool :=
  match c.target_week_start with
  | some (some _) => env.owned c.task_id && env.updateOk c.task_id
  | _ => false

/-- The applied row a successful change produces. -/
def appliedRowOf (c : ApplyChange) : AppliedRow :=
  ⟨c.task_id, c.task_title, c.from_week,
   (c.target_week_start.getD none).getD 0, c.direction⟩

/-- The error row a failing move produces. -/
def errRowOf (env : ApplyEnv) (c : ApplyChange) : ErrRow :=
  match c.target_week_start with
  | none => ⟨c.task_id, "No target week start"⟩
  | some none => ⟨c.task_id, "Invalid isoformat string"⟩
  | some (some _) =>
      if !env.owned c.task_id then ⟨c.task_id, "Task not found"⟩
      else ⟨c.task_id, "Storage error"⟩

/-! Hypotheses encoding the data-model invariants the database provides
(§3 of the spec): task ids are unique, and the stored `year_week` label is
derived from the stored `week_start` (under the label encoding the two
coincide). -/

/-- Task ids are pairwise distinct in a fetched row set. -/
def idsNodup (tasks : List Task) : Prop :=
  (tasks.map Task.task_id).Nodup

/-- Every row's `year_week` label denotes its `week_start` date. -/
def labelConsistent (tasks : List Task) : Prop :=
  ∀ t ∈ tasks, t.year_week = t.week_start

/-! Concrete row sets used by counterexamples and witnesses.  Day 700 is a
Monday (700 % 7 = 0), so with `today = 700` the current week starts at 700. -/

/-- A row with the given id, week label (= week start), target count,
status, priority and goal deadline. -/
def mkTask (id : Nat) (yw : Int) (tc : Option Int) (st : String) (pr : Int)
    (dl : Option Int) : Task :=
  ⟨id, 0, "task", yw, yw + 6, yw, tc, st, pr, dl⟩

/-- One NEW 3h task in a future week (714), nothing in the current week. -/
def tasksPullOnly : List Task := [mkTask 5 714 (some 3) "NEW" 3 none]

/-- One IN_PROGRESS 3h task in a future week: balanced and pull-proof. -/
def tasksBalancedIP : List Task := [mkTask 8 714 (some 3) "IN_PROGRESS" 3 none]

/-- One overdue NEW task whose goal deadline (699) precedes the only week
that could be synthesised for it (700). -/
def tasksOverdueBlocked : List Task := [mkTask 1 693 (some 2) "NEW" 3 (some 699)]

/-- An overdue 4h task plus a 2h current-week task: the overdue task fits
into the current week. -/
def tasksOverduePush : List Task :=
  [mkTask 9 686 (some 4) "NEW" 3 none, mkTask 10 700 (some 2) "NEW" 2 none]

/-- One overdue NEW task blocked by its goal deadline (692 < 693). -/
def tasksOverdueBlocked2 : List Task := [mkTask 11 686 (some 3) "NEW" 2 (some 692)]

/-- A future week (707) overloaded beyond `future_week_hours = 6` whose two
tasks are both deadline-blocked (deadline 710 < synthesised start 714). -/
def tasksFutureBlocked : List Task :=
  [mkTask 12 707 (some 5) "NEW" 4 (some 710), mkTask 13 707 (some 5) "NEW" 2 (some 710)]

/-- A single overdue task with no deadline: every existing week is overdue,
so the push phase must synthesise a week dated 686 — still in the past. -/
def tasksAllOverdue : List Task := [mkTask 4 679 (some 3) "NEW" 3 none]

/-- The apply-phase environment of the one-bad-row scenario: task 4 does
not exist for this user, storage always succeeds. -/
def applyEnvDemo : ApplyEnv := ⟨fun id => id != 4, fun _ => true⟩

/-- A well-formed move change for the apply-phase scenario. -/
def mkApplyChange (id : Nat) : ApplyChange :=
  ⟨"move", id, "t", 707, some (some 700), "push"⟩

/-! ### Association-list lemmas -/

theorem aListGet?_eq_some_mem {α : Type} {m : List (Int × α)} {k : Int} {v : α}
    (h : aListGet? m k = some v) : (k, v) ∈ m := by
  induction m with
  | nil => simp [aListGet?] at h
  | cons p rest ih =>
      simp only [aListGet?] at h
      by_cases hk : k = p.1
      · rw [if_pos hk] at h
        cases h
        rw [hk]
        exact List.mem_cons_self _ _
      · rw [if_neg hk] at h
        exact List.mem_cons_of_mem _ (ih h)

theorem aListGet?_append_some {α : Type} {m m2 : List (Int × α)} {k : Int}
    {v : α} (h : aListGet? m k = some v) : aListGet? (m ++ m2) k = some v := by
  induction m with
  | nil => simp [aListGet?] at h
  | cons p rest ih =>
      simp only [aListGet?] at h ⊢
      by_cases hk : k = p.1
      · rw [if_pos hk] at h ⊢; exact h
      · rw [if_neg hk] at h ⊢; exact ih h

theorem aListGet?_append_none {α : Type} {m m2 : List (Int × α)} {k : Int}
    (h : aListGet? m k = none) : aListGet? (m ++ m2) k = aListGet? m2 k := by
  induction m with
  | nil => rfl
  | cons p rest ih =>
      simp only [aListGet?] at h ⊢
      by_cases hk : k = p.1
      · rw [if_pos hk] at h; cases h
      · rw [if_neg hk] at h ⊢; exact ih h

theorem aListGet?_fresh_none {α : Type} {m : List (Int × α)} {k : Int}
    (h : ∀ p ∈ m, p.1 ≠ k) : aListGet? m k = none := by
  induction m with
  | nil => rfl
  | cons p rest ih =>
      simp only [aListGet?]
      rw [if_neg]
      · exact ih fun q hq => h q (List.mem_cons_of_mem _ hq)
      · intro hk
        exact h p (List.mem_cons_self _ _) hk.symm

theorem aListSet_fresh {α : Type} {m : List (Int × α)} {k : Int} (v : α)
    (h : ∀ p ∈ m, p.1 ≠ k) : aListSet m k v = m ++ [(k, v)] := by
  induction m with
  | nil => rfl
  | cons p rest ih =>
      simp only [aListSet]
      rw [if_neg]
      · rw [ih fun q hq => h q (List.mem_cons_of_mem _ hq)]
        rfl
      · intro hk
        exact h p (List.mem_cons_self _ _) hk.symm

theorem aListGet?_set_ne {α : Type} {m : List (Int × α)} {k l : Int} (v : α)
    (h : l ≠ k) : aListGet? (aListSet m k v) l = aListGet? m l := by
  induction m with
  | nil => simp [aListSet, aListGet?, if_neg h]
  | cons p rest ih =>
      simp only [aListSet]
      by_cases hk : k = p.1
      · rw [if_pos hk]
        simp only [aListGet?]
        rw [if_neg (by rw [← hk] at *; exact h), if_neg (by rw [← hk]; exact h)]
      · rw [if_neg hk]
        simp only [aListGet?]
        by_cases hl : l = p.1
        · rw [if_pos hl, if_pos hl]
        · rw [if_neg hl, if_neg hl]
          exact ih

theorem aListGetD_set_ne {α : Type} {m : List (Int × α)} {k l : Int} (v d : α)
    (h : l ≠ k) : aListGetD (aListSet m k v) l d = aListGetD m l d := by
  unfold aListGetD
  rw [aListGet?_set_ne v h]

theorem aListGet?_map_self {α : Type} {sw : List Int} {x : Int}
    (f : Int → α) (h : x ∈ sw) :
    aListGet? (sw.map fun l => (l, f l)) x = some (f x) := by
  induction sw with
  | nil => cases h
  | cons s rest ih =>
      simp only [List.map_cons, aListGet?]
      by_cases hx : x = s
      · rw [if_pos hx, hx]
      · rw [if_neg hx]
        exact ih ((List.mem_cons.1 h).resolve_left hx)

theorem mem_aListSet_elem {α : Type} {m : List (Int × α)} {k : Int} {v : α}
    {p : Int × α} (h : p ∈ aListSet m k v) : p ∈ m ∨ p = (k, v) := by
  induction m with
  | nil => simp [aListSet] at h; right; exact h
  | cons q rest ih =>
      simp only [aListSet] at h
      by_cases hk : k = q.1
      · rw [if_pos hk] at h
        rcases List.mem_cons.1 h with h1 | h1
        · right; exact h1
        · left; exact List.mem_cons_of_mem _ h1
      · rw [if_neg hk] at h
        rcases List.mem_cons.1 h with h1 | h1
        · left; rw [h1]; exact List.mem_cons_self _ _
        · rcases ih h1 with h2 | h2
          · left; exact List.mem_cons_of_mem _ h2
          · right; exact h2

/-! ### Label-sorting lemmas -/

theorem insertLE_perm (x : Int) (l : List Int) :
    List.Perm (insertLE x l) (x :: l) := by
  induction l with
  | nil => exact List.Perm.refl _
  | cons y ys ih =>
      simp only [insertLE]
      by_cases h : x ≤ y
      · rw [if_pos h]
      · rw [if_neg h]
        exact (ih.cons y).trans (List.Perm.swap x y ys)

theorem sortLabels_perm (l : List Int) : List.Perm (sortLabels l) l := by
  induction l with
  | nil => exact List.Perm.refl _
  | cons x xs ih => exact (insertLE_perm x (sortLabels xs)).trans (ih.cons x)

theorem mem_sortLabels {x : Int} {l : List Int} : x ∈ sortLabels l ↔ x ∈ l :=
  (sortLabels_perm l).mem_iff

theorem insertLE_pairwise {x : Int} {l : List Int}
    (h : l.Pairwise (· ≤ ·)) : (insertLE x l).Pairwise (· ≤ ·) := by
  induction l with
  | nil => simp [insertLE]
  | cons y ys ih =>
      rcases List.pairwise_cons.1 h with ⟨hy, hys⟩
      simp only [insertLE]
      by_cases hxy : x ≤ y
      · rw [if_pos hxy]
        refine List.pairwise_cons.2 ⟨?_, h⟩
        intro b hb
        rcases List.mem_cons.1 hb with hb | hb
        · rw [hb]; exact hxy
        · exact le_trans hxy (hy b hb)
      · rw [if_neg hxy]
        refine List.pairwise_cons.2 ⟨?_, ih hys⟩
        intro b hb
        rcases List.mem_cons.1 ((insertLE_perm x ys).mem_iff.1 hb) with hb | hb
        · rw [hb]; exact le_of_not_le hxy
        · exact hy b hb

theorem sortLabels_pairwise (l : List Int) :
    (sortLabels l).Pairwise (· ≤ ·) := by
  induction l with
  | nil => simp [sortLabels]
  | cons x xs ih => exact insertLE_pairwise ih

theorem mem_dedupKeysAux {x : Int} :
    ∀ (l seen : List Int), x ∈ dedupKeysAux seen l ↔ (x ∈ l ∧ x ∉ seen) := by
  intro l
  induction l with
  | nil => intro seen; simp [dedupKeysAux]
  | cons y ys ih =>
      intro seen
      simp only [dedupKeysAux]
      by_cases hy : y ∈ seen
      · rw [if_pos hy, ih]
        constructor
        · rintro ⟨h1, h2⟩
          exact ⟨List.mem_cons_of_mem _ h1, h2⟩
        · rintro ⟨h1, h2⟩
          rcases List.mem_cons.1 h1 with h3 | h3
          · exact absurd (h3 ▸ hy) h2
          · exact ⟨h3, h2⟩
      · rw [if_neg hy]
        constructor
        · intro h
          rcases List.mem_cons.1 h with h1 | h1
          · exact ⟨h1 ▸ List.mem_cons_self _ _, h1 ▸ hy⟩
          · rcases (ih (y :: seen)).1 h1 with ⟨h2, h3⟩
            exact ⟨List.mem_cons_of_mem _ h2,
              fun hc => h3 (List.mem_cons_of_mem _ hc)⟩
        · rintro ⟨h1, h2⟩
          rcases List.mem_cons.1 h1 with h3 | h3
          · exact h3 ▸ List.mem_cons_self _ _
          · by_cases hxy : x = y
            · exact hxy ▸ List.mem_cons_self _ _
            · refine List.mem_cons_of_mem _ ((ih (y :: seen)).2 ⟨h3, ?_⟩)
              intro hc
              rcases List.mem_cons.1 hc with h4 | h4
              · exact hxy h4
              · exact h2 h4

theorem dedupKeysAux_nodup :
    ∀ (l seen : List Int), (dedupKeysAux seen l).Nodup := by
  intro l
  induction l with
  | nil => intro seen; simp [dedupKeysAux]
  | cons y ys ih =>
      intro seen
      simp only [dedupKeysAux]
      by_cases hy : y ∈ seen
      · rw [if_pos hy]; exact ih seen
      · rw [if_neg hy]
        refine List.nodup_cons.2 ⟨?_, ih (y :: seen)⟩
        intro hmem
        exact ((mem_dedupKeysAux ys (y :: seen)).1 hmem).2 (List.mem_cons_self _ _)

theorem dedupKeys_sub {x : Int} {l : List Int} (h : x ∈ dedupKeys l) : x ∈ l :=
  ((mem_dedupKeysAux l []).1 h).1

theorem mem_dedupKeys {x : Int} {l : List Int} (h : x ∈ l) : x ∈ dedupKeys l :=
  (mem_dedupKeysAux l []).2 ⟨h, by simp⟩

theorem dedupKeys_nodup (l : List Int) : (dedupKeys l).Nodup :=
  dedupKeysAux_nodup l []

theorem initWeeks_nodup (tasks : List Task) : (initWeeks tasks).Nodup :=
  (sortLabels_perm _).nodup_iff.2 (dedupKeys_nodup _)

theorem initWeeks_sorted (tasks : List Task) :
    (initWeeks tasks).Pairwise (· < ·) := by
  have h1 : (initWeeks tasks).Pairwise (· ≤ ·) := by
    unfold initWeeks
    exact sortLabels_pairwise _
  have h2 : (initWeeks tasks).Pairwise (· ≠ ·) := initWeeks_nodup tasks
  exact (h1.and h2).imp fun hab => lt_of_le_of_ne hab.1 hab.2

theorem mem_initWeeks {tasks : List Task} {l : Int} :
    l ∈ initWeeks tasks ↔ ∃ t ∈ tasks, t.year_week = l := by
  constructor
  · intro h
    have := dedupKeys_sub (mem_sortLabels.1 h)
    rcases List.mem_map.1 this with ⟨t, ht, hl⟩
    exact ⟨t, ht, hl⟩
  · rintro ⟨t, ht, hl⟩
    exact mem_sortLabels.2 (mem_dedupKeys (List.mem_map.2 ⟨t, ht, hl⟩))

/-! ### Task-sorting and grouping lemmas -/

theorem insertTaskBy_perm (key : Task → Int) (t : Task) (l : List Task) :
    List.Perm (insertTaskBy key t l) (t :: l) := by
  induction l with
  | nil => exact List.Perm.refl _
  | cons u us ih =>
      simp only [insertTaskBy]
      by_cases h : key t ≤ key u
      · rw [if_pos h]
      · rw [if_neg h]
        exact (ih.cons u).trans (List.Perm.swap t u us)

theorem sortTasksBy_perm (key : Task → Int) (l : List Task) :
    List.Perm (sortTasksBy key l) l := by
  induction l with
  | nil => exact List.Perm.refl _
  | cons t ts ih => exact (insertTaskBy_perm key t (sortTasksBy key ts)).trans (ih.cons t)

theorem mem_sortTasksBy {key : Task → Int} {t : Task} {l : List Task} :
    t ∈ sortTasksBy key l ↔ t ∈ l :=
  (sortTasksBy_perm key l).mem_iff

theorem mem_tasksByWeek {tasks : List Task} {l : Int} {t : Task} :
    t ∈ tasksByWeek tasks l ↔ t ∈ tasks ∧ t.year_week = l := by
  unfold tasksByWeek
  rw [List.mem_filter]
  simp

theorem tasksByWeek_sublist (tasks : List Task) (l : Int) :
    List.Sublist (tasksByWeek tasks l) tasks :=
  List.filter_sublist _

theorem get_hours_ge_one (t : Task) : 1 ≤ get_hours t := by
  unfold get_hours
  match t.target_count with
  | none => simp
  | some tc =>
      by_cases h : tc ≤ 0 ∨ tc > 20 <;> simp [h] <;> omega

theorem sumHours_ge_length (ts : List Task) : (ts.length : Int) ≤ sumHours ts := by
  induction ts with
  | nil => simp [sumHours]
  | cons t rest ih =>
      have := get_hours_ge_one t
      simp only [sumHours, List.map_cons, List.sum_cons, List.length_cons] at *
      push_cast
      omega

/-! ### Classification and `week_info` lemmas -/

theorem classify_week_self_overdue {cws l : Int} (h : l < cws) :
    classify_week cws l l = "overdue" := by
  unfold classify_week
  rw [if_pos h]

theorem classify_week_self_not_overdue {cws l : Int} (h : ¬ l < cws) :
    classify_week cws l l ≠ "overdue" := by
  unfold classify_week
  rw [if_neg h]
  by_cases h2 : l = cws <;> simp [h2]

theorem classify_week_self_overdue_iff {cws l : Int} :
    classify_week cws l l = "overdue" ↔ l < cws := by
  constructor
  · intro h
    by_contra hc
    exact classify_week_self_not_overdue hc h
  · exact classify_week_self_overdue

theorem buildWeekInfo_lookup (cws : Int) :
    ∀ (ts : List Task) (acc : List (Int × WInfo)) (l : Int),
    aListGet? (buildWeekInfo cws ts acc) l =
      match aListGet? acc l with
      | some i => some i
      | none =>
          (ts.find? (fun t => t.year_week == l)).map
            (fun t => ⟨t.week_start, t.week_end, classify_week cws t.week_start l⟩) := by
  intro ts
  induction ts with
  | nil =>
      intro acc l
      simp only [buildWeekInfo, List.find?]
      match aListGet? acc l with
      | some i => rfl
      | none => rfl
  | cons t rest ih =>
      intro acc l
      simp only [buildWeekInfo]
      by_cases hacc : (aListGet? acc t.year_week).isSome
      · rw [if_pos hacc, ih]
        by_cases hl : t.year_week = l
        · rcases Option.isSome_iff_exists.1 hacc with ⟨i, hi⟩
          rw [← hl, hi]
        · simp only [List.find?]
          have : (t.year_week == l) = false := by simp [hl]
          rw [this]
      · rw [if_neg hacc, ih]
        have haccn : aListGet? acc t.year_week = none :=
          Option.not_isSome_iff_eq_none.1 hacc
        by_cases hl : t.year_week = l
        · rw [← hl, haccn]
          rw [aListGet?_append_none haccn]
          simp only [aListGet?, if_pos rfl, List.find?]
          have : (t.year_week == t.year_week) = true := by simp
          rw [this]
          rfl
        · simp only [List.find?]
          have hbeq : (t.year_week == l) = false := by simp [hl]
          rw [hbeq]
          match hal : aListGet? acc l with
          | some i =>
              rw [aListGet?_append_some hal]
          | none =>
              rw [aListGet?_append_none hal]
              simp only [aListGet?]
              rw [if_neg (fun h => hl h.symm)]

theorem buildWeekInfo_mem (cws : Int) :
    ∀ (ts : List Task) (acc : List (Int × WInfo)) (p : Int × WInfo),
    p ∈ buildWeekInfo cws ts acc →
    p ∈ acc ∨ ∃ t ∈ ts,
      p = (t.year_week, ⟨t.week_start, t.week_end,
            classify_week cws t.week_start t.year_week⟩) := by
  intro ts
  induction ts with
  | nil => intro acc p h; left; exact h
  | cons t rest ih =>
      intro acc p h
      simp only [buildWeekInfo] at h
      by_cases hacc : (aListGet? acc t.year_week).isSome
      · rw [if_pos hacc] at h
        rcases ih _ _ h with h1 | ⟨u, hu, hp⟩
        · left; exact h1
        · right; exact ⟨u, List.mem_cons_of_mem _ hu, hp⟩
      · rw [if_neg hacc] at h
        rcases ih _ _ h with h1 | ⟨u, hu, hp⟩
        · rcases List.mem_append.1 h1 with h2 | h2
          · left; exact h2
          · right
            refine ⟨t, List.mem_cons_self _ _, ?_⟩
            simpa using h2
        · right; exact ⟨u, List.mem_cons_of_mem _ hu, hp⟩

/-! ### Sorted-list utilities -/

theorem getLast?_mem : ∀ {l : List Int} {m : Int}, l.getLast? = some m → m ∈ l := by
  intro l
  induction l with
  | nil => intro m h; cases h
  | cons x xs ih =>
      intro m h
      match xs, h with
      | [], h =>
          simp only [List.getLast?] at h
          cases h
          exact List.mem_cons_self _ _
      | y :: ys, h =>
          rw [List.getLast?_cons_cons] at h
          exact List.mem_cons_of_mem _ (ih h)

theorem pairwise_lt_le_getLast : ∀ {l : List Int} {m b : Int},
    l.Pairwise (· < ·) → l.getLast? = some m → b ∈ l → b ≤ m := by
  intro l
  induction l with
  | nil => intro m b _ _ hb; cases hb
  | cons x xs ih =>
      intro m b hs hm hb
      rcases List.pairwise_cons.1 hs with ⟨hx, hxs⟩
      match xs, hm with
      | [], hm =>
          simp only [List.getLast?] at hm
          cases hm
          rcases List.mem_singleton.1 hb with hb1
          exact le_of_eq hb1
      | y :: ys, hm =>
          rw [List.getLast?_cons_cons] at hm
          rcases List.mem_cons.1 hb with hb1 | hb1
          · have hy : m ∈ y :: ys := getLast?_mem hm
            rw [hb1]
            exact le_of_lt (hx m hy)
          · exact ih hxs hm hb1

theorem sorted_mem_drop_indexOf {l : List Int} {w v : Int}
    (hs : l.Pairwise (· < ·)) (hv : v ∈ l.drop (l.indexOf w + 1)) : w < v := by
  induction l with
  | nil => simp at hv
  | cons x xs ih =>
      rcases List.pairwise_cons.1 hs with ⟨hx, hxs⟩
      by_cases hw : x = w
      · have : (x :: xs).indexOf w = 0 := by
          simp [List.indexOf_cons, hw]
        rw [this] at hv
        simp only [List.drop_succ_cons, List.drop_zero] at hv
        rw [← hw]
        exact hx v hv
      · have : (x :: xs).indexOf w = xs.indexOf w + 1 := by
          simp [List.indexOf_cons, hw]
        rw [this] at hv
        simp only [List.drop_succ_cons] at hv
        exact ih hxs hv

theorem sum_filter_cons_le : ∀ (ls : List Int), ls.Nodup →
    ∀ (t : Task) (rest : List Task),
    (ls.map (fun l => ((t :: rest).filter (fun u => u.year_week = l)).length)).sum ≤
    (ls.map (fun l => (rest.filter (fun u => u.year_week = l)).length)).sum + 1 := by
  intro ls
  induction ls with
  | nil => intro _ t rest; simp
  | cons l ls' ih =>
      intro hnd t rest
      rcases List.nodup_cons.1 hnd with ⟨hl, hnd'⟩
      simp only [List.map_cons, List.sum_cons]
      by_cases hyw : t.year_week = l
      · have hhead : ((t :: rest).filter (fun u => u.year_week = l)).length =
            (rest.filter (fun u => u.year_week = l)).length + 1 := by
          simp [List.filter_cons, hyw]
        have htail : (ls'.map (fun l' => ((t :: rest).filter (fun u => u.year_week = l')).length)) =
            (ls'.map (fun l' => (rest.filter (fun u => u.year_week = l')).length)) := by
          apply List.map_congr_left
          intro l' hl'
          have hne : t.year_week ≠ l' := by
            intro hcontra
            apply hl
            rw [← hyw, hcontra]
            exact hl'
          simp [List.filter_cons, hne]
        rw [hhead, htail]
        omega
      · have hhead : ((t :: rest).filter (fun u => u.year_week = l)).length =
            (rest.filter (fun u => u.year_week = l)).length := by
          simp [List.filter_cons, hyw]
        have hih := ih hnd' t rest
        rw [hhead]
        omega

theorem sum_filter_length_le : ∀ (ts : List Task) (ls : List Int), ls.Nodup →
    ((ls.map (fun l => (ts.filter (fun t => t.year_week = l)).length)).sum
      ≤ ts.length) := by
  intro ts
  induction ts with
  | nil =>
      intro ls _
      have hz : (ls.map (fun l =>
          (([] : List Task).filter (fun t => t.year_week = l)).length)).sum = 0 := by
        apply List.sum_eq_zero
        intro x hx
        rcases List.mem_map.1 hx with ⟨l, _, hs⟩
        rw [← hs]
        rfl
      simp [hz]
  | cons t rest ih =>
      intro ls hnd
      calc (ls.map (fun l => ((t :: rest).filter (fun u => u.year_week = l)).length)).sum
          ≤ (ls.map (fun l => (rest.filter (fun u => u.year_week = l)).length)).sum + 1 :=
            sum_filter_cons_le ls hnd t rest
        _ ≤ rest.length + 1 := by
            have := ih ls hnd
            omega
        _ = (t :: rest).length := by simp

end GP

/-- C4: for every task, the effort used in scheduling is the source's
`get_hours`, which coincides with the spec's `clamp(target_count)` and
always lies in the integer range [1, 8]. -/
theorem C4_hours_clamped (t : GP.Task) :
    GP.get_hours t = GP.clamp_spec t.target_count ∧
    1 ≤ GP.get_hours t ∧ GP.get_hours t ≤ 8 := by
  refine ⟨rfl, ?_, ?_⟩ <;>
  · unfold GP.get_hours
    match h : t.target_count with
    | none => simp
    | some tc =>
        by_cases h1 : tc ≤ 0 ∨ tc > 20 <;> simp [h1] <;> omega

/-- C7 (counterexample): the no-op branch's summary does not contain the
`current_week_hours` key, although the claim lists it among the fields of
the Plan shape that the zero-task summary carries. -/
theorem C7_counterexample :
    (GP.calculate_rebalance [] 5 8 700).summary.current_week_hours = none := rfl

/-- C7 (amended): with zero pending tasks `calculate_rebalance` returns
`success = true`, the fixed message, no recommendations, no changes, and a
summary carrying `total_tasks_analyzed = 0`, `tasks_to_move = 0`,
`hours_per_week = future_week_hours`, `overloaded_weeks = []`,
`overdue_tasks_moved = 0` and `pulled_forward = 0` — but, unlike the
non-empty branch, no `current_week_hours` field. -/
theorem C7_no_op_plan (cwh fwh : Int) (today : Int) :
    GP.calculate_rebalance [] cwh fwh today =
      { success := true,
        message := "No pending tasks to rebalance",
        recommendations := [],
        changes := [],
        summary := {
          total_tasks_analyzed := 0, tasks_to_move := 0, hours_per_week := fwh,
          current_week_hours := none, overloaded_weeks := [],
          overdue_tasks_moved := 0, pulled_forward := 0 } } := rfl

/-- C10: a week synthesised by the push phase is recorded with type
`"future"`, capacity `future_week_hours` and an initially empty load,
regardless of its date.  In the all-overdue scenario `tasksAllOverdue`
(one task in week 679, today = 700) the synthesised week starts at 686 —
strictly before the current week's start — did not exist beforehand, is
typed `"future"`, has capacity `future_week_hours = 4`, and receives the
pushed task, so the task is pushed into a week that lies in the past. -/
theorem C10_synth_week_past_future :
    (GP.rebalanceState GP.tasksAllOverdue 5 4 700).full = [679, 686] ∧
    GP.aListGet? (GP.rebalanceState GP.tasksAllOverdue 5 4 700).week_info 686 =
      some ⟨686, 692, "future"⟩ ∧
    GP.get_capacity (GP.rebalanceState GP.tasksAllOverdue 5 4 700).week_info
      5 4 686 = 4 ∧
    (686 : Int) ∉ GP.initWeeks GP.tasksAllOverdue ∧
    GP.aListGetD (GP.rebalanceState GP.tasksAllOverdue 5 4 700).week_load 686 0 = 3 ∧
    686 < GP.get_current_week_start 700 ∧
    (GP.calculate_rebalance GP.tasksAllOverdue 5 4 700).changes.map
      (fun c => (c.to_week, c.target_week_start, c.direction, c.is_overdue)) =
      [(686, 686, "push", true)] := by
  refine ⟨rfl, rfl, by decide, by decide, by decide, by decide, rfl⟩

/-- C1 (counterexample): `tasksPullOnly` (one NEW 3h task in future week
714, today = 700, budgets 8/8) satisfies the claim's precondition — every
week's load is within its capacity, no week is overdue, and the budgets
are admissible — yet `calculate_rebalance` returns a non-empty change list,
because the pull phase moves the task into the current week's spare
capacity. -/
theorem C1_counterexample :
    (∀ l ∈ GP.initWeeks GP.tasksPullOnly,
       GP.sumHours (GP.tasksByWeek GP.tasksPullOnly l) ≤
         GP.get_capacity
           (GP.buildWeekInfo (GP.get_current_week_start 700) GP.tasksPullOnly [])
           8 8 l) ∧
    (∀ l ∈ GP.initWeeks GP.tasksPullOnly,
       GP.infoType
         (GP.buildWeekInfo (GP.get_current_week_start 700) GP.tasksPullOnly [])
         l ≠ "overdue") ∧
    (0 : Int) ≤ 8 ∧ (0 : Int) < 8 ∧
    (GP.calculate_rebalance GP.tasksPullOnly 8 8 700).changes ≠ [] := by
  refine ⟨by decide, by decide, by decide, by decide, by decide⟩

/-- C2 (counterexample): in `tasksOverdueBlocked` task 1 sits in an overdue
week (693 < 700) with a non-IN_PROGRESS status, yet the returned plan has
no changes at all — its goal deadline (699) blocks the only possible
destination (the synthesised week 700), so it is left in the overdue week
instead of appearing as a push. -/
theorem C2_counterexample :
    (GP.mkTask 1 693 (some 2) "NEW" 3 (some 699)) ∈ GP.tasksOverdueBlocked ∧
    (GP.mkTask 1 693 (some 2) "NEW" 3 (some 699)).year_week <
      GP.get_current_week_start 700 ∧
    GP.infoType
      (GP.buildWeekInfo (GP.get_current_week_start 700) GP.tasksOverdueBlocked [])
      693 = "overdue" ∧
    (GP.mkTask 1 693 (some 2) "NEW" 3 (some 699)).status ≠ "IN_PROGRESS" ∧
    (GP.calculate_rebalance GP.tasksOverdueBlocked 8 8 700).changes = [] := by
  refine ⟨by decide, by decide, rfl, by decide, rfl⟩

/-- C6 (counterexample): for the deadline-blocked OVERDUE task of
`tasksOverdueBlocked2` the situation does NOT surface: `overloaded_weeks`
is empty (overdue weeks are skipped when the report is built) and the
only recommendation is the congratulation — not the claimed
high-priority-tasks recommendation. -/
theorem C6_counterexample :
    GP.infoType
      (GP.buildWeekInfo (GP.get_current_week_start 700) GP.tasksOverdueBlocked2 [])
      686 = "overdue" ∧
    (GP.calculate_rebalance GP.tasksOverdueBlocked2 8 8 700).changes = [] ∧
    (GP.calculate_rebalance GP.tasksOverdueBlocked2 8 8 700).summary.overloaded_weeks
      = [] ∧
    (GP.calculate_rebalance GP.tasksOverdueBlocked2 8 8 700).recommendations =
      ["Great job managing your time!"] := by
  refine ⟨rfl, rfl, rfl, rfl⟩

/-- C6 (amended): a task that cannot be pushed without exceeding its goal's
deadline is left unmoved and raises no error (`calculate_rebalance` always
returns `success = true`); the situation surfaces via `overloaded_weeks`
and the high-priority recommendation only when the blocked task's week is
current or future (shown on `tasksFutureBlocked`), while a blocked task in
an overdue week is not reported at all (shown on `tasksOverdueBlocked2`,
whose plan reports emptiness on every channel). -/
theorem C6_deadline_block_amended :
    (∀ (tasks : List GP.Task) (cwh fwh : Int) (today : Int),
       (GP.calculate_rebalance tasks cwh fwh today).success = true) ∧
    ((GP.calculate_rebalance GP.tasksFutureBlocked 0 6 700).changes = [] ∧
     (GP.calculate_rebalance GP.tasksFutureBlocked 0 6 700).summary.overloaded_weeks.map
       (fun o => o.week) = [707] ∧
     "Some high-priority tasks can\x27t be moved" ∈
       (GP.calculate_rebalance GP.tasksFutureBlocked 0 6 700).recommendations) ∧
    ((GP.calculate_rebalance GP.tasksOverdueBlocked2 8 8 700).changes = [] ∧
     (GP.calculate_rebalance GP.tasksOverdueBlocked2 8 8 700).summary.overloaded_weeks
       = []) := by
  refine ⟨?_, ⟨rfl, rfl, by decide⟩, ⟨rfl, rfl⟩⟩
  intro tasks cwh fwh today
  unfold GP.calculate_rebalance
  split
  · rfl
  · rfl

/-- C5: week classification — strictly before the current Monday ⇒
`"overdue"`; otherwise a label equal to the current week's label ⇒
`"current"`; otherwise `"future"` — where the current week start is today
minus its Monday-based weekday index; and capacity — 0 / current budget /
future budget by recorded type.  The final conjunct ties the pipeline in:
every entry the grouping stores in `week_info` is the classification of
the first task carrying that label. -/
theorem C5_classification_capacity (today wsd yw : Int)
    (wi : List (Int × GP.WInfo)) (i : GP.WInfo) (cwh fwh : Int) :
    (wsd < GP.get_current_week_start today →
       GP.classify_week (GP.get_current_week_start today) wsd yw = "overdue") ∧
    (¬ wsd < GP.get_current_week_start today →
       yw = GP.get_current_week_start today →
       GP.classify_week (GP.get_current_week_start today) wsd yw = "current") ∧
    (¬ wsd < GP.get_current_week_start today →
       yw ≠ GP.get_current_week_start today →
       GP.classify_week (GP.get_current_week_start today) wsd yw = "future") ∧
    (GP.aListGet? wi yw = some i →
       (i.type = "overdue" → GP.get_capacity wi cwh fwh yw = 0) ∧
       (i.type = "current" → GP.get_capacity wi cwh fwh yw = cwh) ∧
       (i.type = "future" → GP.get_capacity wi cwh fwh yw = fwh)) ∧
    (∀ (tasks : List GP.Task) (l : Int) (j : GP.WInfo),
       GP.aListGet?
         (GP.buildWeekInfo (GP.get_current_week_start today) tasks []) l = some j →
       ∃ t ∈ tasks, t.year_week = l ∧
         j = ⟨t.week_start, t.week_end,
              GP.classify_week (GP.get_current_week_start today) t.week_start l⟩) := by
  refine ⟨?_, ?_, ?_, ?_, ?_⟩
  · intro h
    unfold GP.classify_week
    rw [if_pos h]
  · intro h1 h2
    unfold GP.classify_week
    rw [if_neg h1, if_pos h2]
  · intro h1 h2
    unfold GP.classify_week
    rw [if_neg h1, if_neg h2]
  · intro h
    have hg : GP.get_capacity wi cwh fwh yw =
        (if i.type = "overdue" then 0
         else if i.type = "current" then cwh else fwh) := by
      unfold GP.get_capacity
      rw [h]
    refine ⟨?_, ?_, ?_⟩
    · intro ht
      rw [hg, ht]
      simp
    · intro ht
      rw [hg, ht]
      simp
    · intro ht
      rw [hg, ht]
      simp
  · intro tasks l j h
    rcases GP.buildWeekInfo_mem (GP.get_current_week_start today) tasks [] _
      (GP.aListGet?_eq_some_mem h) with h1 | ⟨t, ht, hp⟩
    · cases h1
    · have h1 : l = t.year_week := congrArg Prod.fst hp
      have h2 : j = ⟨t.week_start, t.week_end,
          GP.classify_week (GP.get_current_week_start today) t.week_start
            t.year_week⟩ := congrArg Prod.snd hp
      refine ⟨t, ht, h1.symm, ?_⟩
      rw [h2, h1]

/-- C5 witness: the classification and capacity rules applied at concrete
inputs (an overdue week 693 against current week 700, and a current-typed
entry granting the current budget). -/
theorem C5_witness :
    GP.classify_week (GP.get_current_week_start 700) 693 693 = "overdue" ∧
    GP.get_capacity [(693, ⟨693, 699, "overdue"⟩)] 8 6 693 = 0 ∧
    GP.classify_week (GP.get_current_week_start 700) 700 700 = "current" ∧
    GP.get_capacity [(700, ⟨700, 706, "current"⟩)] 8 6 700 = 8 :=
  ⟨(C5_classification_capacity 700 693 693 [(693, ⟨693, 699, "overdue"⟩)]
      ⟨693, 699, "overdue"⟩ 8 6).1 (by decide),
   ((C5_classification_capacity 700 693 693 [(693, ⟨693, 699, "overdue"⟩)]
      ⟨693, 699, "overdue"⟩ 8 6).2.2.2.1 rfl).1 rfl,
   (C5_classification_capacity 700 700 700 [(700, ⟨700, 706, "current"⟩)]
      ⟨700, 706, "current"⟩ 8 6).2.1 (by decide) (by decide),
   ((C5_classification_capacity 700 700 700 [(700, ⟨700, 706, "current"⟩)]
      ⟨700, 706, "current"⟩ 8 6).2.2.2.1 rfl).2.1 rfl⟩

/-- C9: the push-phase destination is first-fit.  `findFit` returns a week
iff it is the first element of the scanned list whose load plus the task's
hours fits its capacity; the scanned list (`searchSpace`) is the filter of
all known weeks to current/future ones for an overdue source, and only the
weeks strictly after the source week's first position otherwise; and a
push step whose `findFit` succeeds records exactly that destination. -/
theorem C9_first_fit_destination (wi : List (Int × GP.WInfo))
    (wl : List (Int × Int)) (cwh fwh hours : Int) :
    (∀ (l : List Int) (v : Int), GP.findFit wi wl cwh fwh hours l = some v →
       ∃ l₁ l₂, l = l₁ ++ v :: l₂ ∧
         GP.aListGetD wl v 0 + hours ≤ GP.get_capacity wi cwh fwh v ∧
         ∀ u ∈ l₁,
           ¬ (GP.aListGetD wl u 0 + hours ≤ GP.get_capacity wi cwh fwh u)) ∧
    (∀ (full : List Int) (w : Int), GP.searchSpace full wi w "overdue" =
       full.filter (fun v =>
         match GP.aListGet? wi v with
         | some i => i.type == "current" || i.type == "future"
         | none => false)) ∧
    (∀ (full : List Int) (w : Int) (wt : String), wt ≠ "overdue" →
       GP.searchSpace full wi w wt = full.drop (full.indexOf w + 1)) ∧
    (∀ (cws w : Int) (wt : String) (t : GP.Task) (rest : List GP.Task)
       (excess : Int) (st : GP.St) (tw : Int),
       ¬ (wt ≠ "overdue" ∧ excess ≤ 0) →
       GP.findFit st.week_info st.week_load cwh fwh (GP.get_hours t)
         (GP.searchSpace st.full st.week_info w wt) = some tw →
       GP.pushTasks cws cwh fwh w wt (t :: rest) excess st =
         GP.pushTasks cws cwh fwh w wt rest (excess - GP.get_hours t)
           (GP.recordPush w wt t (GP.get_hours t) tw
             (GP.infoWeekStart st.week_info tw) st)) := by
  refine ⟨?_, ?_, ?_, ?_⟩
  · intro l
    induction l with
    | nil => intro v h; simp [GP.findFit] at h
    | cons x xs ih =>
        intro v h
        by_cases hfit : GP.aListGetD wl x 0 + hours ≤ GP.get_capacity wi cwh fwh x
        · simp only [GP.findFit] at h
          rw [if_pos hfit] at h
          cases h
          exact ⟨[], xs, rfl, hfit, by simp⟩
        · simp only [GP.findFit] at h
          rw [if_neg hfit] at h
          rcases ih v h with ⟨l₁, l₂, heq, hv, hall⟩
          refine ⟨x :: l₁, l₂, by rw [heq]; rfl, hv, ?_⟩
          intro u hu
          rcases List.mem_cons.1 hu with h1 | h1
          · rw [h1]; exact hfit
          · exact hall u h1
  · intro full w
    rfl
  · intro full w wt hwt
    unfold GP.searchSpace
    rw [if_neg hwt]
  · intro cws w wt t rest excess st tw hbrk hfind
    simp only [GP.pushTasks]
    rw [if_neg hbrk]
    simp only [hfind]

/-- C9 witness: on a concrete two-week search list the first week (the
current week, already full) is rejected and the second is chosen. -/
theorem C9_first_fit_witness :
    ∃ l₁ l₂, ([700, 714] : List Int) = l₁ ++ 714 :: l₂ ∧
      GP.aListGetD [(700, 8), (714, 2)] 714 0 + 3 ≤
        GP.get_capacity
          [(700, ⟨700, 706, "current"⟩), (714, ⟨714, 720, "future"⟩)] 8 8 714 ∧
      ∀ u ∈ l₁, ¬ (GP.aListGetD [(700, 8), (714, 2)] u 0 + 3 ≤
        GP.get_capacity
          [(700, ⟨700, 706, "current"⟩), (714, ⟨714, 720, "future"⟩)] 8 8 u) :=
  (C9_first_fit_destination
    [(700, ⟨700, 706, "current"⟩), (714, ⟨714, 720, "future"⟩)]
    [(700, 8), (714, 2)] 8 8 3).1 [700, 714] 714 (by decide)

/-- One apply step, characterised by `applyOk`: a passing move appends its
applied row, a failing move appends its error row, anything else is
skipped. -/
theorem GP.applyStep_eq (env : GP.ApplyEnv) (a : List GP.AppliedRow)
    (e : List GP.ErrRow) (c : GP.ApplyChange) :
    GP.applyStep env (a, e) c =
      (if c.action == "move" && GP.applyOk env c then (a ++ [GP.appliedRowOf c], e)
       else if c.action == "move" then (a, e ++ [GP.errRowOf env c])
       else (a, e)) := by
  by_cases hact : c.action = "move"
  · have hb : (c.action == "move") = true := by simp [hact]
    unfold GP.applyStep GP.applyOk GP.appliedRowOf GP.errRowOf
    rw [if_neg (by simp [hact])]
    simp only [hb, Bool.true_and]
    match htw : c.target_week_start with
    | none => simp [htw]
    | some none => simp [htw]
    | some (some ws) =>
        simp only [htw]
        by_cases hown : env.owned c.task_id
        · by_cases hupd : env.updateOk c.task_id
          · simp [hown, hupd, Option.getD]
          · simp [hown, hupd]
        · simp [hown]
  · have hb : (c.action == "move") = false := by simp [hact]
    unfold GP.applyStep
    rw [if_pos hact]
    simp [hb]

/-- The apply loop accumulates exactly the filtered applied and error rows,
in order, independently per change. -/
theorem GP.applyStep_foldl (env : GP.ApplyEnv) :
    ∀ (cs : List GP.ApplyChange) (a : List GP.AppliedRow) (e : List GP.ErrRow),
    cs.foldl (GP.applyStep env) (a, e) =
      (a ++ (cs.filter
          (fun c => c.action == "move" && GP.applyOk env c)).map GP.appliedRowOf,
       e ++ (cs.filter
          (fun c => c.action == "move" && !GP.applyOk env c)).map
            (GP.errRowOf env)) := by
  intro cs
  induction cs with
  | nil => intro a e; simp
  | cons c rest ih =>
      intro a e
      simp only [List.foldl_cons, List.filter_cons, GP.applyStep_eq]
      by_cases hmv : (c.action == "move") = true
      · by_cases hx : GP.applyOk env c = true
        · simp [hmv, hx, ih, List.append_assoc]
        · have hx' := eq_false_of_ne_true hx
          simp [hmv, hx', ih, List.append_assoc]
      · have hmv' := eq_false_of_ne_true hmv
        simp [hmv', ih]

/-- C8: `apply_rebalance` processes each move independently — its applied
and error lists are the per-row filters of the input (so one row's failure
never disturbs another row), `success` holds exactly when no error was
recorded, and the totals are the two lengths; on the concrete scenario of
three valid changes plus one referencing a nonexistent task it returns
`total_applied = 3`, `total_errors = 1`, `success = false`. -/
theorem C8_apply_independent :
    (∀ (env : GP.ApplyEnv) (changes : List GP.ApplyChange),
       (GP.apply_rebalance env changes).success =
         (GP.apply_rebalance env changes).errors.isEmpty ∧
       (GP.apply_rebalance env changes).total_applied =
         (GP.apply_rebalance env changes).applied.length ∧
       (GP.apply_rebalance env changes).total_errors =
         (GP.apply_rebalance env changes).errors.length ∧
       (GP.apply_rebalance env changes).applied =
         (changes.filter
           (fun c => c.action == "move" && GP.applyOk env c)).map
             GP.appliedRowOf ∧
       (GP.apply_rebalance env changes).errors =
         (changes.filter
           (fun c => c.action == "move" && !GP.applyOk env c)).map
             (GP.errRowOf env)) ∧
    ((GP.apply_rebalance GP.applyEnvDemo
        [GP.mkApplyChange 1, GP.mkApplyChange 2, GP.mkApplyChange 3,
         GP.mkApplyChange 4]).total_applied = 3 ∧
     (GP.apply_rebalance GP.applyEnvDemo
        [GP.mkApplyChange 1, GP.mkApplyChange 2, GP.mkApplyChange 3,
         GP.mkApplyChange 4]).total_errors = 1 ∧
     (GP.apply_rebalance GP.applyEnvDemo
        [GP.mkApplyChange 1, GP.mkApplyChange 2, GP.mkApplyChange 3,
         GP.mkApplyChange 4]).errors =
       [⟨4, "Task not found"⟩] ∧
     (GP.apply_rebalance GP.applyEnvDemo
        [GP.mkApplyChange 1, GP.mkApplyChange 2, GP.mkApplyChange 3,
         GP.mkApplyChange 4]).success = false) := by
  constructor
  · intro env changes
    unfold GP.apply_rebalance
    rw [GP.applyStep_foldl]
    simp
  · refine ⟨by decide, by decide, by decide, by decide⟩

/-- When every queued week's load fits its capacity, the push phase leaves
the state untouched. -/
theorem GP.phase1Go_noop (tasks : List GP.Task) (cws : Int) (cwh fwh : Int) :
    ∀ (fuel : Nat) (q : List Int) (st : GP.St),
    (∀ w ∈ q, GP.aListGetD st.week_load w 0 ≤
       GP.get_capacity st.week_info cwh fwh w) →
    GP.phase1Go tasks cws cwh fwh fuel q st = st := by
  intro fuel
  induction fuel with
  | zero => intro q st _; rfl
  | succ fuel ih =>
      intro q st hq
      match q with
      | [] => rfl
      | w :: rest =>
          have hw : GP.processWeek tasks cws cwh fwh w st = st := by
            unfold GP.processWeek
            rw [if_pos (hq w (List.mem_cons_self _ _))]
          simp only [GP.phase1Go, hw, List.drop_length, List.append_nil]
          exact ih rest st (fun v hv => hq v (List.mem_cons_of_mem _ hv))

/-- When no scanned future week holds a NEW task, the pull loop leaves the
state untouched. -/
theorem GP.pullWeeks_nochange (tasks : List GP.Task) (cyw tws : Int)
    (insertCur : Bool) (cws : Int) :
    ∀ (fws : List Int) (spare : Int) (st : GP.St),
    (∀ fw ∈ fws,
       (GP.tasksByWeek tasks fw).filter (fun t => t.status == "NEW") = []) →
    GP.pullWeeks tasks cyw tws insertCur cws fws spare st = st := by
  intro fws
  induction fws with
  | nil => intro spare st _; rfl
  | cons fw rest ih =>
      intro spare st hf
      simp only [GP.pullWeeks]
      by_cases hsp : spare ≤ 0
      · rw [if_pos hsp]
      · rw [if_neg hsp]
        rw [hf fw (List.mem_cons_self _ _)]
        simp only [GP.sortTasksBy, GP.pullTasks]
        exact ih spare st (fun v hv => hf v (List.mem_cons_of_mem _ hv))

/-- C1 (amended): if every week's load is at most its capacity, no week is
classified overdue, and additionally no future-classified week holds a NEW
task (the condition the counterexample shows is needed, since the pull
phase otherwise moves such tasks into current-week spare capacity), then
`calculate_rebalance` returns an empty changes list, for all budgets with
`current_week_hours ≥ 0` and `future_week_hours > 0`. -/
theorem C1_balanced_noop (tasks : List GP.Task) (cwh fwh : Int) (today : Int)
    (hbal : ∀ l ∈ GP.initWeeks tasks,
       GP.sumHours (GP.tasksByWeek tasks l) ≤
         GP.get_capacity
           (GP.buildWeekInfo (GP.get_current_week_start today) tasks [])
           cwh fwh l)
    (hnoover : ∀ l ∈ GP.initWeeks tasks,
       GP.infoType (GP.buildWeekInfo (GP.get_current_week_start today) tasks [])
         l ≠ "overdue")
    (hnonew : ∀ t ∈ tasks,
       GP.infoType (GP.buildWeekInfo (GP.get_current_week_start today) tasks [])
         t.year_week = "future" → t.status ≠ "NEW")
    (hcwh : 0 ≤ cwh) (hfwh : 0 < fwh) :
    (GP.calculate_rebalance tasks cwh fwh today).changes = [] := by
  by_cases hemp : tasks.isEmpty
  · unfold GP.calculate_rebalance
    rw [if_pos hemp]
  · unfold GP.calculate_rebalance
    rw [if_neg hemp]
    show (GP.rebalanceState tasks cwh fwh today).changes = []
    simp only [GP.rebalanceState]
    set cws := GP.get_current_week_start today with hcws
    set st0 := GP.initSt tasks cws with hst0
    have hwi : st0.week_info = GP.buildWeekInfo cws tasks [] := rfl
    have hwl : st0.week_load =
        (GP.initWeeks tasks).map
          (fun l => (l, GP.sumHours (GP.tasksByWeek tasks l))) := rfl
    have hfull : st0.full = GP.initWeeks tasks := rfl
    have h1 : GP.phase1Go tasks cws cwh fwh (st0.full.length + tasks.length + 1)
        st0.full st0 = st0 := by
      apply GP.phase1Go_noop
      intro w hw
      rw [hfull] at hw
      have hl : GP.aListGet? st0.week_load w =
          some (GP.sumHours (GP.tasksByWeek tasks w)) := by
        rw [hwl]
        exact GP.aListGet?_map_self _ hw
      unfold GP.aListGetD
      rw [hl]
      rw [hwi]
      exact hbal w hw
    rw [h1]
    have hfut : ∀ fw ∈ st0.full.filter (fun w =>
        match GP.aListGet? st0.week_info w with
        | some i => i.type == "future"
        | none => false),
        (GP.tasksByWeek tasks fw).filter (fun t => t.status == "NEW") = [] := by
      intro fw hfw
      rcases List.mem_filter.1 hfw with ⟨_, hcond⟩
      rw [List.filter_eq_nil]
      intro t ht
      rcases GP.mem_tasksByWeek.1 ht with ⟨htm, hty⟩
      have htype : GP.infoType (GP.buildWeekInfo cws tasks []) t.year_week =
          "future" := by
        unfold GP.infoType
        rw [hty, ← hwi]
        rcases hal : GP.aListGet? st0.week_info fw with _ | i
        · rw [hal] at hcond
        · rw [hal] at hcond
          simp only [beq_iff_eq] at hcond
          exact hcond
      have hns := hnonew t htm htype
      simp [hns]
    unfold GP.phase2
    by_cases hc1 : (GP.aListGet? st0.week_info cws).isSome
    · rw [if_pos hc1]
      by_cases hc2 : 0 < cwh - GP.aListGetD st0.week_load cws 0
      · rw [if_pos hc2]
        rw [GP.pullWeeks_nochange tasks cws _ false cws _ _ st0 hfut]
        rfl
      · rw [if_neg hc2]
        rfl
    · rw [if_neg hc1]
      by_cases hc3 : 0 < cwh
      · rw [if_pos hc3]
        rw [GP.pullWeeks_nochange tasks cws cws true cws _ _ st0 hfut]
        rfl
      · rw [if_neg hc3]
        rfl

/-- C1 witness: a balanced single-task schedule with no NEW future task (the
task is IN_PROGRESS) yields an empty change list. -/
theorem C1_balanced_noop_witness :
    (GP.calculate_rebalance GP.tasksBalancedIP 8 8 700).changes = [] :=
  C1_balanced_noop GP.tasksBalancedIP 8 8 700 (by decide) (by decide)
    (by decide) (by decide) (by decide)

/-- `findFit` only returns members of the scanned list. -/
theorem GP.findFit_mem {wi : List (Int × GP.WInfo)} {wl : List (Int × Int)}
    {cwh fwh hours : Int} :
    ∀ {l : List Int} {v : Int},
    GP.findFit wi wl cwh fwh hours l = some v → v ∈ l := by
  intro l
  induction l with
  | nil => intro v h; simp [GP.findFit] at h
  | cons x xs ih =>
      intro v h
      simp only [GP.findFit] at h
      by_cases hfit : GP.aListGetD wl x 0 + hours ≤ GP.get_capacity wi cwh fwh x
      · rw [if_pos hfit] at h
        cases h
        exact List.mem_cons_self _ _
      · rw [if_neg hfit] at h
        exact List.mem_cons_of_mem _ (ih h)

/-- Under the `week_start = key` invariant, `infoWeekStart` is the
identity. -/
theorem GP.infoWeekStart_eq_self {wi : List (Int × GP.WInfo)} {l : Int}
    (h : ∀ p ∈ wi, (p.2 : GP.WInfo).week_start = p.1) :
    GP.infoWeekStart wi l = l := by
  unfold GP.infoWeekStart
  rcases hal : GP.aListGet? wi l with _ | i
  · rfl
  · exact h (l, i) (GP.aListGet?_eq_some_mem hal)

/-- A label outside `initWeeks` has no tasks. -/
theorem GP.tasksByWeek_eq_nil {tasks : List GP.Task} {l : Int}
    (h : l ∉ GP.initWeeks tasks) : GP.tasksByWeek tasks l = [] := by
  rw [List.eq_nil_iff_forall_not_mem]
  intro t ht
  rcases GP.mem_tasksByWeek.1 ht with ⟨htm, hty⟩
  exact h (GP.mem_initWeeks.2 ⟨t, htm, hty⟩)

/-- Membership in the movable list of the push phase. -/
theorem GP.mem_movable {tasks : List GP.Task} {w : Int} {t : GP.Task} :
    t ∈ GP.sortTasksBy (fun t => -t.priority)
        ((GP.tasksByWeek tasks w).filter (fun t => t.status ≠ "IN_PROGRESS")) ↔
      (t ∈ tasks ∧ t.year_week = w ∧ t.status ≠ "IN_PROGRESS") := by
  rw [GP.mem_sortTasksBy, List.mem_filter, GP.mem_tasksByWeek]
  simp [and_assoc]

/-- Task ids are injective on a row set with `idsNodup`. -/
theorem GP.task_id_inj {tasks : List GP.Task} (h : GP.idsNodup tasks)
    {u v : GP.Task} (hu : u ∈ tasks) (hv : v ∈ tasks)
    (hid : u.task_id = v.task_id) : u = v :=
  List.inj_on_of_nodup_map h hu hv hid

/-- The movable list keeps distinct ids. -/
theorem GP.movable_ids_nodup {tasks : List GP.Task} (h : GP.idsNodup tasks)
    (w : Int) :
    ((GP.sortTasksBy (fun t => -t.priority)
        ((GP.tasksByWeek tasks w).filter
          (fun t => t.status ≠ "IN_PROGRESS"))).map GP.Task.task_id).Nodup := by
  have h1 : ((GP.tasksByWeek tasks w).map GP.Task.task_id).Nodup :=
    ((GP.tasksByWeek_sublist tasks w).map GP.Task.task_id).nodup h
  have h2 : (((GP.tasksByWeek tasks w).filter
      (fun t => t.status ≠ "IN_PROGRESS")).map GP.Task.task_id).Nodup :=
    ((List.filter_sublist _).map GP.Task.task_id).nodup h1
  exact ((GP.sortTasksBy_perm _ _).map GP.Task.task_id).nodup_iff.2 h2

/-- `week_load` is untouched by `recordPush` at keys other than the source
and destination weeks. -/
theorem GP.recordPush_load_other {w : Int} {weekType : String} {t : GP.Task}
    {hours tw tws : Int} {st : GP.St} {l : Int} (h1 : l ≠ w) (h2 : l ≠ tw) :
    GP.aListGetD (GP.recordPush w weekType t hours tw tws st).week_load l 0 =
      GP.aListGetD st.week_load l 0 := by
  unfold GP.recordPush
  simp only
  rw [GP.aListGetD_set_ne _ _ h2, GP.aListGetD_set_ne _ _ h1]

/-- The entry recorded for an `initWeeks` label: the first task of that
label, classified. -/
theorem GP.initWI_lookup {tasks : List GP.Task} {cws l : Int}
    (hcons : GP.labelConsistent tasks) (hmem : l ∈ GP.initWeeks tasks) :
    GP.aListGet? (GP.buildWeekInfo cws tasks []) l =
      some ⟨l, (((tasks.find? (fun t => t.year_week == l)).map
          GP.Task.week_end).getD 0),
        GP.classify_week cws l l⟩ := by
  rw [GP.buildWeekInfo_lookup]
  simp only [GP.aListGet?]
  rcases GP.mem_initWeeks.1 hmem with ⟨t0, ht0, hyw⟩
  have hfind : ∃ u, tasks.find? (fun t => t.year_week == l) = some u := by
    have : (tasks.find? (fun t => t.year_week == l)).isSome := by
      rw [List.find?_isSome]
      exact ⟨t0, ht0, by simp [hyw]⟩
    exact Option.isSome_iff_exists.1 this
  rcases hfind with ⟨u, hu⟩
  rw [hu]
  have humem : u ∈ tasks := List.mem_of_find?_eq_some hu
  have huyw : u.year_week = l := by
    have := List.find?_some hu
    simpa using this
  have huws : u.week_start = l := by
    rw [← huyw]
    exact (hcons u humem).symm
  simp only [Option.map_some, Option.getD_some, Option.map]
  rw [huws]


/-- Push step: early break on a non-overdue week with spent excess. -/
theorem GP.pushTasks_break {cws cwh fwh w : Int} {weekType : String}
    {t : GP.Task} {rest : List GP.Task} {excess : Int} {st : GP.St}
    (h : weekType ≠ "overdue" ∧ excess ≤ 0) :
    GP.pushTasks cws cwh fwh w weekType (t :: rest) excess st = st := by
  simp only [GP.pushTasks]
  rw [if_pos h]

/-- Push step: an existing week fits, so the move is recorded there. -/
theorem GP.pushTasks_fit {cws cwh fwh w : Int} {weekType : String}
    {t : GP.Task} {rest : List GP.Task} {excess : Int} {st : GP.St} {tw : Int}
    (hbrk : ¬ (weekType ≠ "overdue" ∧ excess ≤ 0))
    (hfind : GP.findFit st.week_info st.week_load cwh fwh (GP.get_hours t)
      (GP.searchSpace st.full st.week_info w weekType) = some tw) :
    GP.pushTasks cws cwh fwh w weekType (t :: rest) excess st =
      GP.pushTasks cws cwh fwh w weekType rest (excess - GP.get_hours t)
        (GP.recordPush w weekType t (GP.get_hours t) tw
          (GP.infoWeekStart st.week_info tw) st) := by
  simp only [GP.pushTasks]
  rw [if_neg hbrk]
  simp only [hfind]

/-- Push step: no existing week fits and the goal deadline allows a new
week, so one is synthesised and the move recorded there. -/
theorem GP.pushTasks_synth {cws cwh fwh w : Int} {weekType : String}
    {t : GP.Task} {rest : List GP.Task} {excess : Int} {st : GP.St}
    (hbrk : ¬ (weekType ≠ "overdue" ∧ excess ≤ 0))
    (hfind : GP.findFit st.week_info st.week_load cwh fwh (GP.get_hours t)
      (GP.searchSpace st.full st.week_info w weekType) = none)
    (hce : GP.canExtendB t (GP.nsOf cws st) = true) :
    GP.pushTasks cws cwh fwh w weekType (t :: rest) excess st =
      GP.pushTasks cws cwh fwh w weekType rest (excess - GP.get_hours t)
        (GP.recordPush w weekType t (GP.get_hours t) (GP.nsOf cws st)
          (GP.nsOf cws st) (GP.synthSt st (GP.nsOf cws st))) := by
  simp only [GP.pushTasks]
  rw [if_neg hbrk]
  simp only [hfind]
  rw [if_pos hce]

/-- Push step: no existing week fits and the goal deadline blocks the new
week, so the task is skipped. -/
theorem GP.pushTasks_blocked {cws cwh fwh w : Int} {weekType : String}
    {t : GP.Task} {rest : List GP.Task} {excess : Int} {st : GP.St}
    (hbrk : ¬ (weekType ≠ "overdue" ∧ excess ≤ 0))
    (hfind : GP.findFit st.week_info st.week_load cwh fwh (GP.get_hours t)
      (GP.searchSpace st.full st.week_info w weekType) = none)
    (hce : GP.canExtendB t (GP.nsOf cws st) = false) :
    GP.pushTasks cws cwh fwh w weekType (t :: rest) excess st =
      GP.pushTasks cws cwh fwh w weekType rest excess st := by
  simp only [GP.pushTasks]
  rw [if_neg hbrk]
  simp only [hfind]
  rw [if_neg (by simp [hce])]

/-- The behaviour of the candidate-task loop of the push phase on one week:
`sorted_weeks` grows by at most one strictly-larger fresh label per
candidate; `week_info` only gains entries (keyed by their own start) and
keeps every old binding; every recorded change is a push out of the
processed week naming one candidate; ids stay distinct; on an overdue week
every candidate is either pushed or deadline-blocked and then absent from
the changes; and the load of any other overdue-typed week is untouched. -/
theorem GP.pushTasks_spec (tasks : List GP.Task) (cws cwh fwh w : Int)
    (weekType : String) :
    ∀ (L : List GP.Task) (excess : Int) (st : GP.St),
    List.Pairwise (· < ·) st.full →
    (∀ p ∈ st.week_info, p.1 ∈ st.full) →
    (∀ p ∈ st.week_info, (p.2 : GP.WInfo).week_start = p.1) →
    (∀ u ∈ tasks, u.year_week ∈ st.full) →
    ∃ A Δ,
      (GP.pushTasks cws cwh fwh w weekType L excess st).full = st.full ++ A ∧
      (GP.pushTasks cws cwh fwh w weekType L excess st).changes =
        st.changes ++ Δ ∧
      (GP.pushTasks cws cwh fwh w weekType L excess st).pulled = st.pulled ∧
      A.length ≤ L.length ∧
      (∀ a ∈ A, ∀ b ∈ st.full, b < a) ∧
      List.Pairwise (· < ·) (st.full ++ A) ∧
      (∀ p ∈ (GP.pushTasks cws cwh fwh w weekType L excess st).week_info,
         p.1 ∈ st.full ++ A) ∧
      (∀ p ∈ (GP.pushTasks cws cwh fwh w weekType L excess st).week_info,
         (p.2 : GP.WInfo).week_start = p.1) ∧
      (∀ l i, GP.aListGet? st.week_info l = some i →
         GP.aListGet?
           (GP.pushTasks cws cwh fwh w weekType L excess st).week_info l =
           some i) ∧
      (∀ c ∈ Δ, c.direction = "push" ∧ c.is_overdue = (weekType == "overdue") ∧
         c.from_week = w ∧ ∃ u ∈ L, u.task_id = c.task_id) ∧
      ((L.map GP.Task.task_id).Nodup → (Δ.map GP.Change.task_id).Nodup) ∧
      (weekType = "overdue" → (L.map GP.Task.task_id).Nodup →
         ∀ u ∈ L, (∃ c ∈ Δ, c.task_id = u.task_id) ∨
           (u.goal_deadline.isSome ∧ ∀ c ∈ Δ, c.task_id ≠ u.task_id)) ∧
      (∀ l i, GP.aListGet? st.week_info l = some i → i.type = "overdue" →
         l ≠ w → (weekType = "overdue" ∨ l < w) →
         GP.aListGetD
           (GP.pushTasks cws cwh fwh w weekType L excess st).week_load l 0 =
           GP.aListGetD st.week_load l 0) := by
  intro L
  induction L with
  | nil =>
      intro excess st hsort hkeys hcons hcover
      refine ⟨[], [], ?_, ?_, rfl, ?_, ?_, ?_, ?_, ?_, ?_, ?_, ?_, ?_, ?_⟩
      · simp [GP.pushTasks]
      · simp [GP.pushTasks]
      · simp
      · simp
      · simpa using hsort
      · intro p hp
        rw [List.append_nil]
        exact hkeys p hp
      · intro p hp
        exact hcons p hp
      · intro l i h
        exact h
      · simp
      · simp
      · intro _ _ u hu
        cases hu
      · intro l i _ _ _ _
        rfl
  | cons t rest ih =>
      intro excess st hsort hkeys hcons hcover
      by_cases hbrk : weekType ≠ "overdue" ∧ excess ≤ 0
      · have he := @GP.pushTasks_break cws cwh fwh w weekType t rest excess st
          hbrk
        rw [he]
        refine ⟨[], [], ?_, ?_, rfl, ?_, ?_, ?_, ?_, ?_, ?_, ?_, ?_, ?_, ?_⟩
        · simp
        · simp
        · simp
        · simp
        · simpa using hsort
        · intro p hp
          rw [List.append_nil]
          exact hkeys p hp
        · intro p hp
          exact hcons p hp
        · intro l i h
          exact h
        · simp
        · simp
        · intro hov _
          exact absurd hov hbrk.1
        · intro l i _ _ _ _
          rfl
      · rcases hfind : GP.findFit st.week_info st.week_load cwh fwh
            (GP.get_hours t)
            (GP.searchSpace st.full st.week_info w weekType) with _ | tw
        · -- no existing week fits
          by_cases hce : GP.canExtendB t (GP.nsOf cws st) = true
          · -- synthesise
            have he := @GP.pushTasks_synth cws cwh fwh w weekType t rest excess st
              hbrk hfind hce
            rw [he]
            have hfreshfull : ∀ b ∈ st.full, b < GP.nsOf cws st := by
              intro b hb
              unfold GP.nsOf
              rcases hlast : st.full.getLast? with _ | m
              · rw [List.getLast?_eq_none_iff] at hlast
                rw [hlast] at hb
                cases hb
              · show b < GP.infoWeekStart st.week_info m + 7
                rw [GP.infoWeekStart_eq_self hcons]
                have := GP.pairwise_lt_le_getLast hsort hlast hb
                omega
            set ns := GP.nsOf cws st with hnseq
            have hnotmem : ns ∉ st.full := fun hm => lt_irrefl ns (hfreshfull ns hm)
            have hkeyne : ∀ p ∈ st.week_info, p.1 ≠ ns := by
              intro p hp hpe
              exact hnotmem (hpe ▸ hkeys p hp)
            set stb := GP.synthSt st ns with hstb
            set stm := GP.recordPush w weekType t (GP.get_hours t) ns ns stb
              with hstm
            have hmfull : stm.full = st.full ++ [ns] := rfl
            have hmwi : stm.week_info =
                GP.aListSet st.week_info ns ⟨ns, ns + 6, "future"⟩ := rfl
            have hmchg : stm.changes =
                st.changes ++ [GP.pushChange w weekType t ns ns] := rfl
            have hmpull : stm.pulled = st.pulled := rfl
            have hwiset : stm.week_info =
                st.week_info ++ [(ns, ⟨ns, ns + 6, "future"⟩)] := by
              rw [hmwi]
              exact GP.aListSet_fresh _ hkeyne
            have hsort' : List.Pairwise (· < ·) stm.full := by
              rw [hmfull, List.pairwise_append]
              refine ⟨hsort, by simp, ?_⟩
              intro a ha b hb
              rw [List.mem_singleton] at hb
              rw [hb]
              exact hfreshfull a ha
            have hkeys' : ∀ p ∈ stm.week_info, p.1 ∈ stm.full := by
              intro p hp
              rw [hwiset] at hp
              rw [hmfull]
              rcases List.mem_append.1 hp with h1 | h1
              · exact List.mem_append_left _ (hkeys p h1)
              · rw [List.mem_singleton] at h1
                rw [h1]
                exact List.mem_append_right _ (List.mem_singleton.2 rfl)
            have hcons' : ∀ p ∈ stm.week_info,
                (p.2 : GP.WInfo).week_start = p.1 := by
              intro p hp
              rw [hwiset] at hp
              rcases List.mem_append.1 hp with h1 | h1
              · exact hcons p h1
              · rw [List.mem_singleton] at h1
                rw [h1]
            have hcover' : ∀ u ∈ tasks, u.year_week ∈ stm.full := by
              intro u hu
              rw [hmfull]
              exact List.mem_append_left _ (hcover u hu)
            obtain ⟨A, Δ, c1, c2, c3, c4, c5, c6, c7, c8, c9, c10, c11, c12,
              c13⟩ := ih (excess - GP.get_hours t) stm hsort' hkeys' hcons' hcover'
            refine ⟨ns :: A, GP.pushChange w weekType t ns ns :: Δ,
              ?_, ?_, ?_, ?_, ?_, ?_, ?_, ?_, ?_, ?_, ?_, ?_, ?_⟩
            · rw [c1, hmfull, List.append_assoc, List.singleton_append]
            · rw [c2, hmchg, List.append_assoc, List.singleton_append]
            · rw [c3, hmpull]
            · simp only [List.length_cons]
              omega
            · intro a ha b hb
              rcases List.mem_cons.1 ha with h1 | h1
              · rw [h1]
                exact hfreshfull b hb
              · refine c5 a h1 b ?_
                rw [hmfull]
                exact List.mem_append_left _ hb
            · rw [hmfull, List.append_assoc, List.singleton_append] at c6
              exact c6
            · intro p hp
              have := c7 p hp
              rw [hmfull, List.append_assoc, List.singleton_append] at this
              exact this
            · exact c8
            · intro l i h
              have hne : l ≠ ns := fun hleq =>
                hkeyne (l, i) (GP.aListGet?_eq_some_mem h) hleq
              refine c9 l i ?_
              rw [hmwi, GP.aListGet?_set_ne _ hne]
              exact h
            · intro c hc
              rcases List.mem_cons.1 hc with h1 | h1
              · rw [h1]
                exact ⟨rfl, rfl, rfl, t, List.mem_cons_self _ _, rfl⟩
              · obtain ⟨d1, d2, d3, u, hu, hid⟩ := c10 c h1
                exact ⟨d1, d2, d3, u, List.mem_cons_of_mem _ hu, hid⟩
            · intro hnd
              rw [List.map_cons, List.nodup_cons] at hnd
              rw [List.map_cons, List.nodup_cons]
              refine ⟨?_, c11 hnd.2⟩
              intro hsin
              rcases List.mem_map.1 hsin with ⟨c, hcΔ, hcid⟩
              obtain ⟨_, _, _, u, huR, huid⟩ := c10 c hcΔ
              exact hnd.1 (List.mem_map.2 ⟨u, huR, (huid.trans hcid).trans rfl⟩)
            · intro hov hnd u hu
              rw [List.map_cons, List.nodup_cons] at hnd
              rcases List.mem_cons.1 hu with h1 | h1
              · left
                refine ⟨GP.pushChange w weekType t ns ns,
                  List.mem_cons_self _ _, ?_⟩
                subst h1
                rfl
              · rcases c12 hov hnd.2 u h1 with ⟨c, hc, hid⟩ | ⟨hds, hall⟩
                · exact Or.inl ⟨c, List.mem_cons_of_mem _ hc, hid⟩
                · refine Or.inr ⟨hds, ?_⟩
                  intro c hc
                  rcases List.mem_cons.1 hc with h2 | h2
                  · rw [h2]
                    intro heq
                    exact hnd.1 (List.mem_map.2 ⟨u, h1, heq.symm⟩)
                  · exact hall c h2
            · intro l i hlk hty hlw hdisj
              have hne : l ≠ ns := fun hleq =>
                hkeyne (l, i) (GP.aListGet?_eq_some_mem hlk) hleq
              have hlkm : GP.aListGet? stm.week_info l = some i := by
                rw [hmwi, GP.aListGet?_set_ne _ hne]
                exact hlk
              rw [c13 l i hlkm hty hlw hdisj]
              have h2 : GP.aListGetD stm.week_load l 0 =
                  GP.aListGetD stb.week_load l 0 :=
                GP.recordPush_load_other hlw hne
              rw [h2]
              have hbload : stb.week_load = GP.aListSet st.week_load ns 0 := rfl
              rw [hbload, GP.aListGetD_set_ne _ _ hne]
          · -- deadline-blocked
            have hce' : GP.canExtendB t (GP.nsOf cws st) = false :=
              eq_false_of_ne_true hce
            have he := @GP.pushTasks_blocked cws cwh fwh w weekType t rest excess st
              hbrk hfind hce'
            rw [he]
            obtain ⟨A, Δ, c1, c2, c3, c4, c5, c6, c7, c8, c9, c10, c11, c12,
              c13⟩ := ih excess st hsort hkeys hcons hcover
            refine ⟨A, Δ, c1, c2, c3, ?_, c5, c6, c7, c8, c9, ?_, ?_, ?_, c13⟩
            · exact le_trans c4 (by simp)
            · intro c hc
              obtain ⟨d1, d2, d3, u, hu, hid⟩ := c10 c hc
              exact ⟨d1, d2, d3, u, List.mem_cons_of_mem _ hu, hid⟩
            · intro hnd
              rw [List.map_cons, List.nodup_cons] at hnd
              exact c11 hnd.2
            · intro hov hnd u hu
              rw [List.map_cons, List.nodup_cons] at hnd
              rcases List.mem_cons.1 hu with h1 | h1
              · right
                constructor
                · rcases htd : t.goal_deadline with _ | d
                  · exfalso
                    unfold GP.canExtendB at hce'
                    rw [htd] at hce'
                    cases hce'
                  · subst h1
                    rw [htd]
                    rfl
                · intro c hc heq
                  obtain ⟨_, _, _, u', hu', hid⟩ := c10 c hc
                  subst h1
                  exact hnd.1 (List.mem_map.2 ⟨u', hu', hid.trans heq⟩)
              · exact c12 hov hnd.2 u h1
        · -- an existing week fits
          have he := @GP.pushTasks_fit cws cwh fwh w weekType t rest excess st tw
            hbrk hfind
          rw [he]
          set stm := GP.recordPush w weekType t (GP.get_hours t) tw
            (GP.infoWeekStart st.week_info tw) st with hstm
          have hmfull : stm.full = st.full := rfl
          have hmwi : stm.week_info = st.week_info := rfl
          have hmchg : stm.changes = st.changes ++
              [GP.pushChange w weekType t tw
                (GP.infoWeekStart st.week_info tw)] := rfl
          have hmpull : stm.pulled = st.pulled := rfl
          obtain ⟨A, Δ, c1, c2, c3, c4, c5, c6, c7, c8, c9, c10, c11, c12,
            c13⟩ := ih (excess - GP.get_hours t) stm
              (by rw [hmfull]; exact hsort)
              (by rw [hmwi, hmfull]; exact hkeys)
              (by rw [hmwi]; exact hcons)
              (by intro u hu; rw [hmfull]; exact hcover u hu)
          refine ⟨A, GP.pushChange w weekType t tw
              (GP.infoWeekStart st.week_info tw) :: Δ,
            ?_, ?_, ?_, ?_, ?_, ?_, ?_, ?_, ?_, ?_, ?_, ?_, ?_⟩
          · rw [c1, hmfull]
          · rw [c2, hmchg, List.append_assoc, List.singleton_append]
          · rw [c3, hmpull]
          · simp only [List.length_cons]
            omega
          · intro a ha b hb
            refine c5 a ha b ?_
            rw [hmfull]
            exact hb
          · rw [hmfull] at c6
            exact c6
          · intro p hp
            have := c7 p hp
            rw [hmfull] at this
            exact this
          · exact c8
          · intro l i h
            refine c9 l i ?_
            rw [hmwi]
            exact h
          · intro c hc
            rcases List.mem_cons.1 hc with h1 | h1
            · rw [h1]
              exact ⟨rfl, rfl, rfl, t, List.mem_cons_self _ _, rfl⟩
            · obtain ⟨d1, d2, d3, u, hu, hid⟩ := c10 c h1
              exact ⟨d1, d2, d3, u, List.mem_cons_of_mem _ hu, hid⟩
          · intro hnd
            rw [List.map_cons, List.nodup_cons] at hnd
            rw [List.map_cons, List.nodup_cons]
            refine ⟨?_, c11 hnd.2⟩
            intro hsin
            rcases List.mem_map.1 hsin with ⟨c, hcΔ, hcid⟩
            obtain ⟨_, _, _, u, huR, huid⟩ := c10 c hcΔ
            exact hnd.1 (List.mem_map.2 ⟨u, huR, (huid.trans hcid).trans rfl⟩)
          · intro hov hnd u hu
            rw [List.map_cons, List.nodup_cons] at hnd
            rcases List.mem_cons.1 hu with h1 | h1
            · left
              refine ⟨GP.pushChange w weekType t tw
                  (GP.infoWeekStart st.week_info tw),
                List.mem_cons_self _ _, ?_⟩
              subst h1
              rfl
            · rcases c12 hov hnd.2 u h1 with ⟨c, hc, hid⟩ | ⟨hds, hall⟩
              · exact Or.inl ⟨c, List.mem_cons_of_mem _ hc, hid⟩
              · refine Or.inr ⟨hds, ?_⟩
                intro c hc
                rcases List.mem_cons.1 hc with h2 | h2
                · rw [h2]
                  intro heq
                  exact hnd.1 (List.mem_map.2 ⟨u, h1, heq.symm⟩)
                · exact hall c h2
          · intro l i hlk hty hlw hdisj
            have htwmem := GP.findFit_mem hfind
            have hltw : l ≠ tw := by
              by_cases hov : weekType = "overdue"
              · unfold GP.searchSpace at htwmem
                rw [if_pos hov] at htwmem
                rcases List.mem_filter.1 htwmem with ⟨_, hcnd⟩
                intro hltw'
                rw [← hltw', hlk] at hcnd
                simp [hty] at hcnd
              · rcases hdisj with h2 | h2
                · exact absurd h2 hov
                · unfold GP.searchSpace at htwmem
                  rw [if_neg hov] at htwmem
                  have := GP.sorted_mem_drop_indexOf hsort htwmem
                  intro hltw'
                  omega
            have hlkm : GP.aListGet? stm.week_info l = some i := by
              rw [hmwi]
              exact hlk
            rw [c13 l i hlkm hty hlw hdisj]
            exact GP.recordPush_load_other hlw hltw

/-- A week whose load fits its capacity is skipped by the push phase. -/
theorem GP.processWeek_skip {tasks : List GP.Task} {cws cwh fwh w : Int}
    {st : GP.St}
    (h : GP.aListGetD st.week_load w 0 ≤ GP.get_capacity st.week_info cwh fwh w) :
    GP.processWeek tasks cws cwh fwh w st = st := by
  unfold GP.processWeek
  rw [if_pos h]

/-- An overloaded week is handed to `pushTasks` with its movable tasks. -/
theorem GP.processWeek_go {tasks : List GP.Task} {cws cwh fwh w : Int}
    {st : GP.St}
    (h : ¬ GP.aListGetD st.week_load w 0 ≤
      GP.get_capacity st.week_info cwh fwh w) :
    GP.processWeek tasks cws cwh fwh w st =
      GP.pushTasks cws cwh fwh w (GP.infoType st.week_info w)
        (GP.sortTasksBy (fun t => -t.priority)
          ((GP.tasksByWeek tasks w).filter (fun t => t.status ≠ "IN_PROGRESS")))
        (GP.aListGetD st.week_load w 0 - GP.get_capacity st.week_info cwh fwh w)
        st := by
  unfold GP.processWeek
  rw [if_neg h]

/-- The length of the movable list is bounded by the week's task count. -/
theorem GP.movable_length_le (tasks : List GP.Task) (w : Int) :
    (GP.sortTasksBy (fun t => -t.priority)
      ((GP.tasksByWeek tasks w).filter
        (fun t => t.status ≠ "IN_PROGRESS"))).length ≤
      (GP.tasksByWeek tasks w).length := by
  rw [(GP.sortTasksBy_perm _ _).length_eq]
  exact List.length_filter_le _ _

/-- On an `initWeeks` label below the current week start, the stored entry
is typed `"overdue"` (under label consistency). -/
theorem GP.initWI_overdue {tasks : List GP.Task} {cws l : Int}
    (H2 : GP.labelConsistent tasks) (hmem : l ∈ GP.initWeeks tasks)
    (hlt : l < cws) :
    ∃ i, GP.aListGet? (GP.buildWeekInfo cws tasks []) l = some i ∧
      i.type = "overdue" := by
  refine ⟨_, GP.initWI_lookup H2 hmem, ?_⟩
  exact GP.classify_week_self_overdue hlt

/-- End-to-end behaviour of the push phase over its (growing) week queue:
every change is a push of a non-IN_PROGRESS task flagged overdue exactly
when the task's week is overdue, no task id repeats, every overdue
non-IN_PROGRESS task is either pushed (flagged) or deadline-blocked and
untouched, and the initially recorded week entries survive. -/
theorem GP.phase1Go_spec (tasks : List GP.Task) (cws cwh fwh : Int)
    (H1 : GP.idsNodup tasks) (H2 : GP.labelConsistent tasks) :
    ∀ (fuel : Nat) (q pre : List Int) (st : GP.St),
    fuel ≥ q.length + (q.map (fun v => (GP.tasksByWeek tasks v).length)).sum →
    st.full = pre ++ q →
    List.Pairwise (· < ·) st.full →
    (∀ u ∈ tasks, u.year_week ∈ st.full) →
    (∀ p ∈ st.week_info, p.1 ∈ st.full) →
    (∀ p ∈ st.week_info, (p.2 : GP.WInfo).week_start = p.1) →
    (∀ l i, GP.aListGet? (GP.buildWeekInfo cws tasks []) l = some i →
       GP.aListGet? st.week_info l = some i) →
    (∀ l ∈ q, l ∈ GP.initWeeks tasks → l < cws →
       GP.aListGetD st.week_load l 0 = GP.sumHours (GP.tasksByWeek tasks l)) →
    (∀ c ∈ st.changes, ∃ u ∈ tasks, u.task_id = c.task_id ∧
       u.status ≠ "IN_PROGRESS" ∧ c.direction = "push" ∧
       (c.is_overdue = true ↔ u.year_week < cws) ∧ u.year_week ∈ pre) →
    (st.changes.map GP.Change.task_id).Nodup →
    (∀ u ∈ tasks, u.year_week ∈ pre → u.year_week < cws →
       u.status ≠ "IN_PROGRESS" →
       (∃ c ∈ st.changes, c.task_id = u.task_id ∧ c.direction = "push" ∧
          c.is_overdue = true) ∨
       (u.goal_deadline.isSome ∧
        ∀ c ∈ st.changes, c.task_id ≠ u.task_id)) →
    ((∀ c ∈ (GP.phase1Go tasks cws cwh fwh fuel q st).changes,
        ∃ u ∈ tasks, u.task_id = c.task_id ∧ u.status ≠ "IN_PROGRESS" ∧
          c.direction = "push" ∧ (c.is_overdue = true ↔ u.year_week < cws)) ∧
     ((GP.phase1Go tasks cws cwh fwh fuel q st).changes.map
        GP.Change.task_id).Nodup ∧
     (∀ u ∈ tasks, u.year_week < cws → u.status ≠ "IN_PROGRESS" →
        (∃ c ∈ (GP.phase1Go tasks cws cwh fwh fuel q st).changes,
           c.task_id = u.task_id ∧ c.direction = "push" ∧
           c.is_overdue = true) ∨
        (u.goal_deadline.isSome ∧
         ∀ c ∈ (GP.phase1Go tasks cws cwh fwh fuel q st).changes,
           c.task_id ≠ u.task_id)) ∧
     (∀ l i, GP.aListGet? (GP.buildWeekInfo cws tasks []) l = some i →
        GP.aListGet?
          (GP.phase1Go tasks cws cwh fwh fuel q st).week_info l = some i)) := by
  intro fuel
  induction fuel with
  | zero =>
      intro q pre st hfuel hfull hsort hcover hkeys hcons hf hload hI9 hI10 hI11
      have hq : q = [] := by
        cases q with
        | nil => rfl
        | cons a as =>
            exfalso
            simp only [List.length_cons] at hfuel
            omega
      subst hq
      rw [List.append_nil] at hfull
      refine ⟨?_, hI10, ?_, hf⟩
      · intro c hc
        obtain ⟨u, hu, h1, h2, h3, h4, _⟩ := hI9 c hc
        exact ⟨u, hu, h1, h2, h3, h4⟩
      · intro u hu hlt hst
        have hm := hcover u hu
        rw [hfull] at hm
        exact hI11 u hu hm hlt hst
  | succ fuel ih =>
      intro q pre st hfuel hfull hsort hcover hkeys hcons hf hload hI9 hI10 hI11
      match q with
      | [] =>
          rw [List.append_nil] at hfull
          refine ⟨?_, hI10, ?_, hf⟩
          · intro c hc
            obtain ⟨u, hu, h1, h2, h3, h4, _⟩ := hI9 c hc
            exact ⟨u, hu, h1, h2, h3, h4⟩
          · intro u hu hlt hst
            have hm := hcover u hu
            rw [hfull] at hm
            exact hI11 u hu hm hlt hst
      | w :: rest =>
          have hspl : List.Pairwise (· < ·) (pre ++ w :: rest) := by
            rw [← hfull]
            exact hsort
          have hcross := List.pairwise_append.1 hspl
          have hwnotpre : w ∉ pre := by
            intro hm
            exact lt_irrefl w (hcross.2.2 w hm w (List.mem_cons_self _ _))
          have hwlt_rest : ∀ l ∈ rest, w < l :=
            (List.pairwise_cons.1 hcross.2.1).1
          have happend_cons : pre ++ w :: rest = (pre ++ [w]) ++ rest := by
            simp
          simp only [GP.phase1Go]
          simp only [List.length_cons, List.map_cons, List.sum_cons] at hfuel
          by_cases hskip : GP.aListGetD st.week_load w 0 ≤
              GP.get_capacity st.week_info cwh fwh w
          · rw [GP.processWeek_skip hskip]
            simp only [List.drop_length, List.append_nil]
            apply ih rest (pre ++ [w]) st
            · omega
            · rw [hfull]
              exact happend_cons
            · exact hsort
            · exact hcover
            · exact hkeys
            · exact hcons
            · exact hf
            · intro l hl
              exact hload l (List.mem_cons_of_mem _ hl)
            · intro c hc
              obtain ⟨u, hu, h1, h2, h3, h4, h5⟩ := hI9 c hc
              exact ⟨u, hu, h1, h2, h3, h4, List.mem_append_left _ h5⟩
            · exact hI10
            · intro u hu hupre hucws hust
              rcases List.mem_append.1 hupre with h1 | h1
              · exact hI11 u hu h1 hucws hust
              · exfalso
                rw [List.mem_singleton] at h1
                have hwin : w ∈ GP.initWeeks tasks :=
                  GP.mem_initWeeks.2 ⟨u, hu, h1⟩
                have hwcws : w < cws := by rw [← h1]; exact hucws
                obtain ⟨iw, hiwlk, hiwty⟩ := GP.initWI_overdue H2 hwin hwcws
                have hstw := hf _ _ hiwlk
                have hcap : GP.get_capacity st.week_info cwh fwh w = 0 := by
                  simp [GP.get_capacity, hstw, hiwty]
                have hld := hload w (List.mem_cons_self _ _) hwin hwcws
                have hnonempty : 0 < (GP.tasksByWeek tasks w).length :=
                  List.length_pos_of_mem (GP.mem_tasksByWeek.2 ⟨hu, h1⟩)
                have hge := GP.sumHours_ge_length (GP.tasksByWeek tasks w)
                rw [hcap] at hskip
                rw [hld] at hskip
                have : (1 : Int) ≤ (GP.tasksByWeek tasks w).length := by
                  exact_mod_cast hnonempty
                omega
          · rw [GP.processWeek_go hskip]
            by_cases hwin : w ∈ GP.initWeeks tasks
            · -- the processed week is one of the original weeks
              have hiw := @GP.initWI_lookup tasks cws w H2 hwin
              have hstw := hf _ _ hiw
              have hwt : GP.infoType st.week_info w =
                  GP.classify_week cws w w := by
                unfold GP.infoType
                rw [hstw]
              obtain ⟨A, Δ, c1, c2, c3, c4, c5, c6, c7, c8, c9, c10, c11, c12,
                c13⟩ := GP.pushTasks_spec tasks cws cwh fwh w
                  (GP.infoType st.week_info w)
                  (GP.sortTasksBy (fun t => -t.priority)
                    ((GP.tasksByWeek tasks w).filter
                      (fun t => t.status ≠ "IN_PROGRESS")))
                  (GP.aListGetD st.week_load w 0 -
                    GP.get_capacity st.week_info cwh fwh w)
                  st hsort hkeys hcons hcover
              have hAnotinit : ∀ a ∈ A, a ∉ GP.initWeeks tasks := by
                intro a ha hmem
                rcases GP.mem_initWeeks.1 hmem with ⟨t, ht, hyw⟩
                have hm : a ∈ st.full := by
                  rw [← hyw]
                  exact hcover t ht
                exact lt_irrefl a (c5 a ha a hm)
              have hove : ((GP.infoType st.week_info w == "overdue") = true) ↔
                  w < cws := by
                rw [hwt, beq_iff_eq]
                exact GP.classify_week_self_overdue_iff
              rw [c1]
              rw [List.drop_left]
              apply ih (rest ++ A) (pre ++ [w])
              · -- fuel
                have hAlen : A.length ≤ (GP.tasksByWeek tasks w).length :=
                  le_trans c4 (GP.movable_length_le tasks w)
                have hsumA : ((A.map
                    (fun v => (GP.tasksByWeek tasks v).length)).sum = 0) :=
                  List.sum_eq_zero (by
                    intro x hx
                    rcases List.mem_map.1 hx with ⟨a, ha, hax⟩
                    rw [← hax, GP.tasksByWeek_eq_nil (hAnotinit a ha)]
                    rfl)
                simp only [List.length_append, List.map_append,
                  List.sum_append, hsumA]
                omega
              · rw [c1, hfull]
                simp
              · rw [c1]
                exact c6
              · intro u hu
                rw [c1]
                exact List.mem_append_left _ (hcover u hu)
              · intro p hp
                rw [c1]
                exact c7 p hp
              · exact c8
              · intro l i h
                exact c9 l i (hf l i h)
              · intro l hl hlin hlcws
                rcases List.mem_append.1 hl with h1 | h1
                · obtain ⟨il, hillk, hilty⟩ := GP.initWI_overdue H2 hlin hlcws
                  have hstl := hf _ _ hillk
                  have hlw : l ≠ w := fun he =>
                    (lt_irrefl w (he ▸ hwlt_rest l h1))
                  have hdisj : GP.infoType st.week_info w = "overdue" ∨ l < w := by
                    by_cases hwcws : w < cws
                    · left
                      rw [hwt]
                      exact GP.classify_week_self_overdue hwcws
                    · right
                      omega
                  rw [c13 l il hstl hilty hlw hdisj]
                  exact hload l (List.mem_cons_of_mem _ h1) hlin hlcws
                · exact absurd hlin (hAnotinit l h1)
              · intro c hc
                rw [c2] at hc
                rcases List.mem_append.1 hc with h1 | h1
                · obtain ⟨u, hu, d1, d2, d3, d4, d5⟩ := hI9 c h1
                  exact ⟨u, hu, d1, d2, d3, d4, List.mem_append_left _ d5⟩
                · obtain ⟨d1, d2, d3, u, humov, huid⟩ := c10 c h1
                  rcases GP.mem_movable.1 humov with ⟨hu, hyw, hst⟩
                  refine ⟨u, hu, huid, hst, d1, ?_, ?_⟩
                  · rw [d2, hyw]
                    exact hove
                  · exact List.mem_append_right _
                      (List.mem_singleton.2 hyw)
              · rw [c2, List.map_append]
                rw [List.nodup_append]
                refine ⟨hI10, c11 (GP.movable_ids_nodup H1 w), ?_⟩
                intro a ha hb
                rcases List.mem_map.1 ha with ⟨c, hc, hcid⟩
                rcases List.mem_map.1 hb with ⟨c', hc', hcid'⟩
                obtain ⟨u, hu, d1, _, _, _, d5⟩ := hI9 c hc
                obtain ⟨_, _, _, u', humov, huid'⟩ := c10 c' hc'
                rcases GP.mem_movable.1 humov with ⟨hu', hyw', _⟩
                have hids : u.task_id = u'.task_id := by
                  rw [d1, hcid, ← hcid', ← huid']
                have := GP.task_id_inj H1 hu hu' hids
                rw [this] at d5
                rw [hyw'] at d5
                exact hwnotpre d5
              · intro u hu hupre hucws hust
                rcases List.mem_append.1 hupre with h1 | h1
                · rcases hI11 u hu h1 hucws hust with ⟨c, hc, e1, e2, e3⟩ |
                    ⟨hds, hall⟩
                  · refine Or.inl ⟨c, ?_, e1, e2, e3⟩
                    rw [c2]
                    exact List.mem_append_left _ hc
                  · refine Or.inr ⟨hds, ?_⟩
                    intro c hc
                    rw [c2] at hc
                    rcases List.mem_append.1 hc with h2 | h2
                    · exact hall c h2
                    · obtain ⟨_, _, _, u', humov, huid'⟩ := c10 c h2
                      rcases GP.mem_movable.1 humov with ⟨hu', hyw', _⟩
                      intro heq
                      have hueq : u' = u :=
                        GP.task_id_inj H1 hu' hu (by rw [huid', heq])
                      rw [hueq] at hyw'
                      rw [hyw'] at h1
                      exact hwnotpre h1
                · rw [List.mem_singleton] at h1
                  have hwcws : w < cws := by rw [← h1]; exact hucws
                  have hwtov : GP.infoType st.week_info w = "overdue" := by
                    rw [hwt]
                    exact GP.classify_week_self_overdue hwcws
                  have humov : u ∈ GP.sortTasksBy (fun t => -t.priority)
                      ((GP.tasksByWeek tasks w).filter
                        (fun t => t.status ≠ "IN_PROGRESS")) :=
                    GP.mem_movable.2 ⟨hu, h1, hust⟩
                  rcases c12 hwtov (GP.movable_ids_nodup H1 w) u humov with
                    ⟨c, hc, hcid⟩ | ⟨hds, hall⟩
                  · obtain ⟨d1, d2, d3, _⟩ := c10 c hc
                    refine Or.inl ⟨c, ?_, hcid, d1, ?_⟩
                    · rw [c2]
                      exact List.mem_append_right _ hc
                    · rw [d2]
                      rw [hwtov]
                      rfl
                  · refine Or.inr ⟨hds, ?_⟩
                    intro c hc
                    rw [c2] at hc
                    rcases List.mem_append.1 hc with h2 | h2
                    · obtain ⟨u', hu', d1, _, _, _, d5⟩ := hI9 c h2
                      intro heq
                      have hueq : u' = u :=
                        GP.task_id_inj H1 hu' hu (by rw [d1, heq])
                      rw [hueq] at d5
                      rw [h1] at d5
                      exact hwnotpre d5
                    · exact hall c h2
            · -- a synthesised week: it has no tasks, so nothing happens
              rw [GP.tasksByWeek_eq_nil hwin]
              simp only [List.filter_nil, GP.sortTasksBy, GP.pushTasks]
              simp only [List.drop_length, List.append_nil]
              apply ih rest (pre ++ [w]) st
              · omega
              · rw [hfull]
                exact happend_cons
              · exact hsort
              · exact hcover
              · exact hkeys
              · exact hcons
              · exact hf
              · intro l hl
                exact hload l (List.mem_cons_of_mem _ hl)
              · intro c hc
                obtain ⟨u, hu, h1, h2, h3, h4, h5⟩ := hI9 c hc
                exact ⟨u, hu, h1, h2, h3, h4, List.mem_append_left _ h5⟩
              · exact hI10
              · intro u hu hupre hucws hust
                rcases List.mem_append.1 hupre with h1 | h1
                · exact hI11 u hu h1 hucws hust
                · exfalso
                  rw [List.mem_singleton] at h1
                  exact hwin (GP.mem_initWeeks.2 ⟨u, hu, h1⟩)

/-- Membership in the pull phase candidate list of one future week. -/
theorem GP.mem_pullCand {tasks : List GP.Task} {fw : Int} {u : GP.Task} :
    u ∈ GP.sortTasksBy (fun t => t.priority)
        ((GP.tasksByWeek tasks fw).filter (fun t => t.status == "NEW")) ↔
      (u ∈ tasks ∧ u.year_week = fw ∧ u.status = "NEW") := by
  rw [GP.mem_sortTasksBy, List.mem_filter, GP.mem_tasksByWeek]
  simp [and_assoc]

/-- The inner pull loop over one week\x27s candidates: it only appends pull
changes of candidate tasks (never overdue-flagged), and — thanks to the
already-in-changes guard — keeps the `task_id`s of the change list free of
duplicates. -/
theorem GP.pullTasks_spec (cyw tws : Int) (insertCur : Bool) (cws fw : Int) :
    ∀ (cand : List GP.Task) (spare : Int) (st : GP.St),
    ∃ Ps : List GP.Change,
      (GP.pullTasks cyw tws insertCur cws fw cand spare st).1.changes =
        st.changes ++ Ps ∧
      (∀ c ∈ Ps, c.direction = "pull" ∧ c.is_overdue = false ∧
        ∃ u ∈ cand, u.task_id = c.task_id) ∧
      ((st.changes.map GP.Change.task_id).Nodup →
        ((GP.pullTasks cyw tws insertCur cws fw cand spare
            st).1.changes.map GP.Change.task_id).Nodup) := by
  intro cand
  induction cand with
  | nil =>
      intro spare st
      exact ⟨[], by simp [GP.pullTasks], by simp, fun h => h⟩
  | cons t rest ih =>
      intro spare st
      simp only [GP.pullTasks]
      by_cases h0 : spare ≤ 0
      · rw [if_pos h0]
        exact ⟨[], by simp, by simp, fun h => h⟩
      · rw [if_neg h0]
        by_cases h1 : st.changes.any (fun c => c.task_id == t.task_id)
        · rw [if_pos h1]
          obtain ⟨P, e1, e2, e3⟩ := ih spare st
          exact ⟨P, e1,
            fun c hc => ⟨(e2 c hc).1, (e2 c hc).2.1,
              (e2 c hc).2.2.elim (fun u hu =>
                ⟨u, List.mem_cons_of_mem _ hu.1, hu.2⟩)⟩, e3⟩
        · rw [if_neg h1]
          by_cases h2 : GP.get_hours t ≤ spare
          · rw [if_pos h2]
            have hch : (GP.recordPull cyw tws insertCur cws fw t
                (GP.get_hours t) st).changes =
                st.changes ++ [GP.pullChange cyw tws fw t] := rfl
            obtain ⟨P, e1, e2, e3⟩ := ih (spare - GP.get_hours t)
              (GP.recordPull cyw tws insertCur cws fw t (GP.get_hours t) st)
            refine ⟨GP.pullChange cyw tws fw t :: P, ?_, ?_, ?_⟩
            · rw [e1, hch]
              simp
            · intro c hc
              rcases List.mem_cons.1 hc with h3 | h3
              · subst h3
                exact ⟨rfl, rfl, t, List.mem_cons_self _ _, rfl⟩
              · exact ⟨(e2 c h3).1, (e2 c h3).2.1,
                  (e2 c h3).2.2.elim (fun u hu =>
                    ⟨u, List.mem_cons_of_mem _ hu.1, hu.2⟩)⟩
            · intro hnd
              apply e3
              rw [hch, List.map_append, List.nodup_append]
              refine ⟨hnd, by simp, ?_⟩
              intro a ha hb
              rcases List.mem_map.1 ha with ⟨c, hc, hcid⟩
              have hb1 : a = t.task_id := by
                simpa using hb
              apply h1
              rw [List.any_eq_true]
              refine ⟨c, hc, ?_⟩
              rw [beq_iff_eq, hcid, hb1]
          · rw [if_neg h2]
            obtain ⟨P, e1, e2, e3⟩ := ih spare st
            exact ⟨P, e1,
              fun c hc => ⟨(e2 c hc).1, (e2 c hc).2.1,
                (e2 c hc).2.2.elim (fun u hu =>
                  ⟨u, List.mem_cons_of_mem _ hu.1, hu.2⟩)⟩, e3⟩

/-- The outer pull loop over the future weeks: every appended change pulls
a NEW task of one of those weeks, and `task_id` freshness is preserved. -/
theorem GP.pullWeeks_spec (tasks : List GP.Task) (cyw tws : Int)
    (insertCur : Bool) (cws : Int) :
    ∀ (fws : List Int) (spare : Int) (st : GP.St),
    ∃ Ps : List GP.Change,
      (GP.pullWeeks tasks cyw tws insertCur cws fws spare st).changes =
        st.changes ++ Ps ∧
      (∀ c ∈ Ps, c.direction = "pull" ∧ c.is_overdue = false ∧
        ∃ fw ∈ fws, ∃ u ∈ tasks, u.year_week = fw ∧ u.status = "NEW" ∧
          u.task_id = c.task_id) ∧
      ((st.changes.map GP.Change.task_id).Nodup →
        ((GP.pullWeeks tasks cyw tws insertCur cws fws spare
            st).changes.map GP.Change.task_id).Nodup) := by
  intro fws
  induction fws with
  | nil =>
      intro spare st
      exact ⟨[], by simp [GP.pullWeeks], by simp, fun h => h⟩
  | cons fw rest ih =>
      intro spare st
      simp only [GP.pullWeeks]
      by_cases h0 : spare ≤ 0
      · rw [if_pos h0]
        exact ⟨[], by simp, by simp, fun h => h⟩
      · rw [if_neg h0]
        obtain ⟨P1, e1, e2, e3⟩ := GP.pullTasks_spec cyw tws insertCur cws fw
          (GP.sortTasksBy (fun t => t.priority)
            ((GP.tasksByWeek tasks fw).filter (fun t => t.status == "NEW")))
          spare st
        obtain ⟨P2, f1, f2, f3⟩ := ih
          (GP.pullTasks cyw tws insertCur cws fw
            (GP.sortTasksBy (fun t => t.priority)
              ((GP.tasksByWeek tasks fw).filter
                (fun t => t.status == "NEW"))) spare st).2
          (GP.pullTasks cyw tws insertCur cws fw
            (GP.sortTasksBy (fun t => t.priority)
              ((GP.tasksByWeek tasks fw).filter
                (fun t => t.status == "NEW"))) spare st).1
        refine ⟨P1 ++ P2, ?_, ?_, ?_⟩
        · rw [f1, e1, List.append_assoc]
        · intro c hc
          rcases List.mem_append.1 hc with h3 | h3
          · obtain ⟨d1, d2, u, hu, hid⟩ := e2 c h3
            rcases GP.mem_pullCand.1 hu with ⟨hum, huy, hus⟩
            exact ⟨d1, d2, fw, List.mem_cons_self _ _, u, hum, huy, hus, hid⟩
          · obtain ⟨d1, d2, fw', hfw', hrest⟩ := f2 c h3
            exact ⟨d1, d2, fw', List.mem_cons_of_mem _ hfw', hrest⟩
        · intro hnd
          exact f3 (e3 hnd)

/-- Phase 2 as a whole: the pull phase only appends changes with
`direction="pull"`, `is_overdue=false`, each for a NEW task whose week is
typed `"future"` in the incoming `week_info`, and it preserves the
freshness of the `task_id`s in the change list. -/
theorem GP.phase2_spec (tasks : List GP.Task) (cws cyw cwh : Int)
    (st : GP.St) :
    ∃ Ps : List GP.Change,
      (GP.phase2 tasks cws cyw cwh st).changes = st.changes ++ Ps ∧
      (∀ c ∈ Ps, c.direction = "pull" ∧ c.is_overdue = false ∧
        ∃ u ∈ tasks, u.status = "NEW" ∧ u.task_id = c.task_id ∧
          ∃ i, GP.aListGet? st.week_info u.year_week = some i ∧
            i.type = "future") ∧
      ((st.changes.map GP.Change.task_id).Nodup →
        ((GP.phase2 tasks cws cyw cwh st).changes.map
          GP.Change.task_id).Nodup) := by
  have hfut : ∀ fw ∈ st.full.filter (fun w =>
      match GP.aListGet? st.week_info w with
      | some i => i.type == "future"
      | none => false),
      ∃ i, GP.aListGet? st.week_info fw = some i ∧ i.type = "future" := by
    intro fw hfw
    have hp := (List.mem_filter.1 hfw).2
    match hlk : GP.aListGet? st.week_info fw with
    | some i =>
        rw [hlk] at hp
        exact ⟨i, rfl, by simpa using hp⟩
    | none =>
        rw [hlk] at hp
        cases hp
  unfold GP.phase2
  by_cases hc1 : (GP.aListGet? st.week_info cyw).isSome
  · rw [if_pos hc1]
    by_cases hc2 : 0 < cwh - GP.aListGetD st.week_load cyw 0
    · rw [if_pos hc2]
      obtain ⟨P, e1, e2, e3⟩ := GP.pullWeeks_spec tasks cyw
        (GP.infoWeekStart st.week_info cyw) false cws
        (st.full.filter (fun w =>
          match GP.aListGet? st.week_info w with
          | some i => i.type == "future"
          | none => false))
        (cwh - GP.aListGetD st.week_load cyw 0) st
      refine ⟨P, e1, ?_, e3⟩
      intro c hc
      obtain ⟨d1, d2, fw, hfw, u, hu, huy, hus, hid⟩ := e2 c hc
      obtain ⟨i, hlk, hty⟩ := hfut fw hfw
      exact ⟨d1, d2, u, hu, hus, hid, i, by rw [huy]; exact hlk, hty⟩
    · rw [if_neg hc2]
      exact ⟨[], by simp, by simp, fun h => h⟩
  · rw [if_neg hc1]
    by_cases hc3 : 0 < cwh
    · rw [if_pos hc3]
      obtain ⟨P, e1, e2, e3⟩ := GP.pullWeeks_spec tasks cyw cws true cws
        (st.full.filter (fun w =>
          match GP.aListGet? st.week_info w with
          | some i => i.type == "future"
          | none => false))
        cwh st
      refine ⟨P, e1, ?_, e3⟩
      intro c hc
      obtain ⟨d1, d2, fw, hfw, u, hu, huy, hus, hid⟩ := e2 c hc
      obtain ⟨i, hlk, hty⟩ := hfut fw hfw
      exact ⟨d1, d2, u, hu, hus, hid, i, by rw [huy]; exact hlk, hty⟩
    · rw [if_neg hc3]
      exact ⟨[], by simp, by simp, fun h => h⟩

/-- Combined change-list guarantees of a full run (both phases): the
`task_id`s are distinct, every change is a push of a non-IN_PROGRESS task
(overdue-flagged iff its week is overdue) or a pull of a NEW task from a
non-overdue week, and every overdue non-IN_PROGRESS task is pushed or
deadline-blocked and untouched. -/
theorem GP.rebalanceState_spec (tasks : List GP.Task) (cwh fwh today : Int)
    (h1 : GP.idsNodup tasks) (h2 : GP.labelConsistent tasks) :
    ((GP.rebalanceState tasks cwh fwh today).changes.map
       GP.Change.task_id).Nodup ∧
    (∀ c ∈ (GP.rebalanceState tasks cwh fwh today).changes,
      (c.direction = "push" ∧ ∃ u ∈ tasks, u.task_id = c.task_id ∧
        u.status ≠ "IN_PROGRESS" ∧
        (c.is_overdue = true ↔
          u.year_week < GP.get_current_week_start today)) ∨
      (c.direction = "pull" ∧ c.is_overdue = false ∧ ∃ u ∈ tasks,
        u.status = "NEW" ∧ u.task_id = c.task_id ∧
        ¬ u.year_week < GP.get_current_week_start today)) ∧
    (∀ u ∈ tasks, u.year_week < GP.get_current_week_start today →
      u.status ≠ "IN_PROGRESS" →
      (∃ c ∈ (GP.rebalanceState tasks cwh fwh today).changes,
         c.task_id = u.task_id ∧ c.direction = "push" ∧
         c.is_overdue = true) ∨
      (u.goal_deadline.isSome ∧
       ∀ c ∈ (GP.rebalanceState tasks cwh fwh today).changes,
         c.task_id ≠ u.task_id)) := by
  set cws := GP.get_current_week_start today with hcws
  have hfull0 : (GP.initSt tasks cws).full = GP.initWeeks tasks := rfl
  have hwi0 : (GP.initSt tasks cws).week_info =
      GP.buildWeekInfo cws tasks [] := rfl
  have hwl0 : (GP.initSt tasks cws).week_load =
      (GP.initWeeks tasks).map
        (fun l => (l, GP.sumHours (GP.tasksByWeek tasks l))) := rfl
  have hch0 : (GP.initSt tasks cws).changes = [] := rfl
  have hre : GP.rebalanceState tasks cwh fwh today =
      GP.phase2 tasks cws cws cwh
        (GP.phase1Go tasks cws cwh fwh
          ((GP.initSt tasks cws).full.length + tasks.length + 1)
          (GP.initSt tasks cws).full (GP.initSt tasks cws)) := rfl
  obtain ⟨E1, E2, E3, E4⟩ := GP.phase1Go_spec tasks cws cwh fwh h1 h2
      ((GP.initSt tasks cws).full.length + tasks.length + 1)
      (GP.initSt tasks cws).full [] (GP.initSt tasks cws)
    (by
      have hsum : ((GP.initWeeks tasks).map
          (fun v => (GP.tasksByWeek tasks v).length)).sum ≤ tasks.length := by
        have := GP.sum_filter_length_le tasks (GP.initWeeks tasks)
          (GP.initWeeks_nodup tasks)
        simpa [GP.tasksByWeek] using this
      rw [hfull0]
      omega)
    (by rw [List.nil_append])
    (by rw [hfull0]; exact GP.initWeeks_sorted tasks)
    (by
      intro u hu
      rw [hfull0]
      exact GP.mem_initWeeks.2 ⟨u, hu, rfl⟩)
    (by
      intro p hp
      rw [hwi0] at hp
      rcases GP.buildWeekInfo_mem cws tasks [] p hp with h | ⟨t, ht, hpt⟩
      · cases h
      · rw [hfull0, hpt]
        exact GP.mem_initWeeks.2 ⟨t, ht, rfl⟩)
    (by
      intro p hp
      rw [hwi0] at hp
      rcases GP.buildWeekInfo_mem cws tasks [] p hp with h | ⟨t, ht, hpt⟩
      · cases h
      · rw [hpt]
        exact (h2 t ht).symm)
    (by
      intro l i h
      rw [hwi0]
      exact h)
    (by
      intro l hl _ _
      rw [hfull0] at hl
      rw [hwl0]
      unfold GP.aListGetD
      rw [GP.aListGet?_map_self _ hl]
      rfl)
    (by
      intro c hc
      rw [hch0] at hc
      cases hc)
    (by
      rw [hch0]
      exact List.nodup_nil)
    (by
      intro u _ hupre _ _
      cases hupre)
  obtain ⟨Ps, f1, f2, f3⟩ := GP.phase2_spec tasks cws cws cwh
    (GP.phase1Go tasks cws cwh fwh
      ((GP.initSt tasks cws).full.length + tasks.length + 1)
      (GP.initSt tasks cws).full (GP.initSt tasks cws))
  have hkey : ∀ v ∈ tasks, v.year_week < cws →
      ¬ ∃ i, GP.aListGet?
          (GP.phase1Go tasks cws cwh fwh
            ((GP.initSt tasks cws).full.length + tasks.length + 1)
            (GP.initSt tasks cws).full (GP.initSt tasks cws)).week_info
          v.year_week = some i ∧ i.type = "future" := by
    intro v hv hvlt ⟨i, hlk, hty⟩
    have hvin : v.year_week ∈ GP.initWeeks tasks :=
      GP.mem_initWeeks.2 ⟨v, hv, rfl⟩
    obtain ⟨i0, hlk0, hty0⟩ := GP.initWI_overdue h2 hvin hvlt
    have h5 := E4 _ _ hlk0
    rw [hlk] at h5
    have h6 := Option.some.inj h5
    rw [← h6] at hty0
    rw [hty0] at hty
    exact absurd hty (by decide)
  refine ⟨?_, ?_, ?_⟩
  · rw [hre]
    exact f3 E2
  · intro c hc
    rw [hre, f1] at hc
    rcases List.mem_append.1 hc with h3 | h3
    · obtain ⟨u, hu, g1, g2, g3, g4⟩ := E1 c h3
      exact Or.inl ⟨g3, u, hu, g1, g2, g4⟩
    · obtain ⟨d1, d2, u, hu, hus, hid, i, hlk, hty⟩ := f2 c h3
      refine Or.inr ⟨d1, d2, u, hu, hus, hid, ?_⟩
      intro hlt
      exact hkey u hu hlt ⟨i, hlk, hty⟩
  · intro u hu hlt hst
    rcases E3 u hu hlt hst with ⟨c, hc, g1, g2, g3⟩ | ⟨hds, hall⟩
    · refine Or.inl ⟨c, ?_, g1, g2, g3⟩
      rw [hre, f1]
      exact List.mem_append_left _ hc
    · refine Or.inr ⟨hds, ?_⟩
      intro c hc
      rw [hre, f1] at hc
      rcases List.mem_append.1 hc with h3 | h3
      · exact hall c h3
      · obtain ⟨_, _, u', hu', _, hid', i, hlk, hty⟩ := f2 c h3
        intro heq
        have hueq : u' = u :=
          GP.task_id_inj h1 hu' hu (by rw [hid', heq])
        rw [hueq] at hlk
        exact hkey u hu hlt ⟨i, hlk, hty⟩

/-- C2 (amended): in every plan, an overdue non-IN_PROGRESS task either
appears in `changes` as a push flagged `is_overdue=true`, or — when every
reachable destination would exceed its goal deadline — it has a deadline,
is left unmoved and appears in no change at all; an IN_PROGRESS overdue
task never appears in any change.  (Rows are assumed to carry distinct
`task_id`s and a `year_week` label matching their `week_start`, as the
data model guarantees.) -/
theorem C2_overdue_forcing_amended (tasks : List GP.Task)
    (cwh fwh today : Int)
    (h1 : GP.idsNodup tasks) (h2 : GP.labelConsistent tasks) :
    ∀ u ∈ tasks, u.year_week < GP.get_current_week_start today →
      (u.status ≠ "IN_PROGRESS" →
        (∃ c ∈ (GP.calculate_rebalance tasks cwh fwh today).changes,
           c.task_id = u.task_id ∧ c.direction = "push" ∧
           c.is_overdue = true) ∨
        (u.goal_deadline.isSome ∧
         ∀ c ∈ (GP.calculate_rebalance tasks cwh fwh today).changes,
           c.task_id ≠ u.task_id)) ∧
      (u.status = "IN_PROGRESS" →
        ∀ c ∈ (GP.calculate_rebalance tasks cwh fwh today).changes,
          c.task_id ≠ u.task_id) := by
  intro u hu hlt
  have he : ¬ (tasks.isEmpty = true) := by
    cases tasks with
    | nil => cases hu
    | cons a l => simp
  have hch : (GP.calculate_rebalance tasks cwh fwh today).changes =
      (GP.rebalanceState tasks cwh fwh today).changes := by
    unfold GP.calculate_rebalance
    rw [if_neg he]
    rfl
  obtain ⟨N, S, F⟩ := GP.rebalanceState_spec tasks cwh fwh today h1 h2
  constructor
  · intro hst
    rcases F u hu hlt hst with ⟨c, hc, g⟩ | ⟨hds, hall⟩
    · left
      refine ⟨c, ?_, g⟩
      rw [hch]
      exact hc
    · right
      refine ⟨hds, ?_⟩
      intro c hc
      rw [hch] at hc
      exact hall c hc
  · intro hst c hc heq
    rw [hch] at hc
    rcases S c hc with ⟨_, u', hu', hid, hunip, _⟩ |
      ⟨_, _, u', hu', hus, hid, _⟩
    · have hueq : u' = u := GP.task_id_inj h1 hu' hu (by rw [hid, heq])
      rw [hueq] at hunip
      exact hunip hst
    · have hueq : u' = u := GP.task_id_inj h1 hu' hu (by rw [hid, heq])
      rw [hueq] at hus
      rw [hst] at hus
      exact absurd hus (by decide)

/-- C2 witness: in the two-task overdue scenario, the overdue task 9 is
pushed with the overdue flag. -/
theorem C2_overdue_forcing_witness :
    GP.idsNodup GP.tasksOverduePush ∧
    GP.labelConsistent GP.tasksOverduePush ∧
    ∃ c ∈ (GP.calculate_rebalance GP.tasksOverduePush 8 8 700).changes,
      c.task_id = 9 ∧ c.direction = "push" ∧ c.is_overdue = true := by
  refine ⟨by unfold GP.idsNodup; decide, by unfold GP.labelConsistent; decide, ?_⟩
  have h := (C2_overdue_forcing_amended GP.tasksOverduePush 8 8 700
      (by unfold GP.idsNodup; decide) (by unfold GP.labelConsistent; decide)
      (GP.mkTask 9 686 (some 4) "NEW" 3 none)
      (by decide) (by decide)).1 (by decide)
  rcases h with ⟨c, hc, e1, e2, e3⟩ | h
  · exact ⟨c, hc, e1.trans rfl, e2, e3⟩
  · exact absurd h.1 (by decide)

/-- C3: no `task_id` appears in more than one entry of the `changes` list
of a plan — the push phase moves a task at most once and the pull phase
skips any task already present in the list.  (Rows are assumed to carry
distinct `task_id`s and a `year_week` label matching their `week_start`,
as the data model guarantees.) -/
theorem C3_no_double_move (tasks : List GP.Task) (cwh fwh today : Int)
    (h1 : GP.idsNodup tasks) (h2 : GP.labelConsistent tasks) :
    ((GP.calculate_rebalance tasks cwh fwh today).changes.map
      GP.Change.task_id).Nodup := by
  by_cases he : tasks.isEmpty = true
  · have hch : (GP.calculate_rebalance tasks cwh fwh today).changes = [] := by
      unfold GP.calculate_rebalance
      rw [if_pos he]
    rw [hch]
    exact List.nodup_nil
  · have hch : (GP.calculate_rebalance tasks cwh fwh today).changes =
        (GP.rebalanceState tasks cwh fwh today).changes := by
      unfold GP.calculate_rebalance
      rw [if_neg he]
      rfl
    rw [hch]
    exact (GP.rebalanceState_spec tasks cwh fwh today h1 h2).1

/-- C3 witness: distinct change ids on the pull-only scenario. -/
theorem C3_no_double_move_witness :
    GP.idsNodup GP.tasksPullOnly ∧ GP.labelConsistent GP.tasksPullOnly ∧
    ((GP.calculate_rebalance GP.tasksPullOnly 8 8 714).changes.map
      GP.Change.task_id).Nodup :=
  ⟨by unfold GP.idsNodup; decide, by unfold GP.labelConsistent; decide,
    C3_no_double_move GP.tasksPullOnly 8 8 714
      (by unfold GP.idsNodup; decide) (by unfold GP.labelConsistent; decide)⟩
